import Mathlib

/-!
Verification of the particle simulation driver in example/particles/particles2.c.

Real arithmetic of the C source (double) is embedded as exact rational
arithmetic (ℚ); machine integers (int, long long, p4est_locidx_t) are embedded
as ℤ, unsigned int as ℕ with explicit reduction mod 2^32 where overflow could
matter.  The quadtree (P4EST_DIM = 2) and octree (P4_TO_P8, P4EST_DIM = 3)
builds of the file are both covered through a boolean dimension flag dim3.
-/

namespace Particles

/-- Coordinate triples such as lxyz, hxyz, dxyz in the source. -/
abbrev Vec3 := Fin 3 → ℚ

/-- The six-component state vectors xv, wo, up of pa_data_t. -/
abbrev Vec6 := Fin 6 → ℚ

/-- C round(): round half away from zero (arguments here are rationals). -/
def cround (x : ℚ) : ℤ :=
  if x < 0 then -⌊-x + 1/2⌋ else ⌊x + 1/2⌋

/-! ## Simpson quadrature (claim C8)

Embedding of `static const double simpson[3]` (line 106) and of
`integrate` (lines 202-237). -/

/-- Simpson weights from line 106 of the source. -/
def simpson : Fin 3 → ℚ := ![1/6, 2/3, 1/6]

/-- Shallow embedding of integrate (lines 202-237).  The loop nest is written
as a finite sum; `dim3 = true` is the `P4_TO_P8` build where the outer k loop
runs over three sample points weighted by `simpson[k] * dxyz[2]`, while the
2-D build fixes `k = 0` and `wk = 1`.  The density is sampled at
`lxyz + (i/2) * dxyz`, i.e. the low corner, midpoint, and high corner. -/
def integrate (dim3 : Bool) (dens : ℚ → ℚ → ℚ → ℚ) (lxyz dxyz : Vec3) : ℚ :=
  if dim3 then
    ∑ k : Fin 3, ∑ j : Fin 3, ∑ i : Fin 3,
      ((simpson k * dxyz 2) * simpson j * dxyz 1) * simpson i * dxyz 0 *
        dens (lxyz 0 + (i : ℚ) / 2 * dxyz 0)
             (lxyz 1 + (j : ℚ) / 2 * dxyz 1)
             (lxyz 2 + (k : ℚ) / 2 * dxyz 2)
  else
    ∑ j : Fin 3, ∑ i : Fin 3,
      ((1 : ℚ) * simpson j * dxyz 1) * simpson i * dxyz 0 *
        dens (lxyz 0 + (i : ℚ) / 2 * dxyz 0)
             (lxyz 1 + (j : ℚ) / 2 * dxyz 1)
             (lxyz 2 + 0 / 2 * dxyz 2)

/-! ## Pack classification (claim C1)

Embedding of the counting loop of `pack` (lines 626-736): a found-record
value `pori < 0` counts as lost, `pori >= mpisize` as remaining, and the rest
(a remote rank) as sent. -/

/-- The three counters remainz, sendz, lostz of pack. -/
structure PackCounts where
  remainz : ℤ
  sendz : ℤ
  lostz : ℤ
deriving DecidableEq, Repr

/-- One iteration of the classification loop in pack (lines 658-716),
restricted to the counter updates. -/
def packStep (mpisize : ℤ) (c : PackCounts) (pori : ℤ) : PackCounts :=
  if pori < 0 then { c with lostz := c.lostz + 1 }
  else if mpisize ≤ pori then { c with remainz := c.remainz + 1 }
  else { c with sendz := c.sendz + 1 }

/-- The counters produced by pack from the local pfound array. -/
def packCounts (mpisize : ℤ) (pfound : List ℤ) : PackCounts :=
  pfound.foldl (packStep mpisize) ⟨0, 0, 0⟩

/-- Total of the three counters. -/
def PackCounts.total (c : PackCounts) : ℤ := c.remainz + c.sendz + c.lostz

theorem packStep_total (mpisize : ℤ) (c : PackCounts) (pori : ℤ) :
    (packStep mpisize c pori).total = c.total + 1 := by
  unfold packStep PackCounts.total
  split <;> [skip; split] <;> simp <;> ring

theorem packCounts_foldl_total (mpisize : ℤ) (pfound : List ℤ) (c : PackCounts) :
    (pfound.foldl (packStep mpisize) c).total = c.total + pfound.length := by
  induction pfound generalizing c with
  | nil => simp
  | cons hd tl ih =>
      simp only [List.foldl_cons, List.length_cons]
      rw [ih, packStep_total]
      push_cast
      ring

/-- Claim C1.  Every relocation pass classifies each particle record into
exactly one of lost, remaining, or sent, so on each process
remainz + sendz + lostz equals the local particle count (the length of the
pfound array), and the sum over all processes equals the global particle
count gpnum established at creation (where gpnum was all-reduced as the sum
of the local creation counts). -/
theorem pack_conservation (mpisize : ℤ) (procs : List (List ℤ)) (gpnum : ℤ)
    (hg : gpnum = (procs.map (fun p => (p.length : ℤ))).sum) :
    (∀ c : PackCounts, ∀ pori : ℤ,
      (packStep mpisize c pori).total = c.total + 1) ∧
    (∀ pf : List ℤ, (packCounts mpisize pf).total = pf.length) ∧
    (procs.map (fun p => (packCounts mpisize p).total)).sum = gpnum := by
  refine ⟨fun c pori => packStep_total mpisize c pori, fun pf => ?_, ?_⟩
  · simpa [PackCounts.total] using packCounts_foldl_total mpisize pf ⟨0, 0, 0⟩
  · subst hg
    induction procs with
    | nil => simp
    | cons hd tl ih =>
        simp only [List.map_cons, List.sum_cons, ih]
        have := packCounts_foldl_total mpisize hd ⟨0, 0, 0⟩
        simp only [packCounts]
        rw [this]
        simp [PackCounts.total]

/-- Witness for C1 at a concrete input: three processes, mpisize = 3,
records lost (-7), remaining (3, 5), sent (0, 2), empty third process. -/
theorem pack_conservation_witness :
    ((5 : ℤ) = ([[-7, 3, 0], [5, 2], []].map
        (fun p => ((p : List ℤ).length : ℤ))).sum) ∧
    ((∀ c : PackCounts, ∀ pori : ℤ,
        (packStep 3 c pori).total = c.total + 1) ∧
      (∀ pf : List ℤ, (packCounts 3 pf).total = pf.length) ∧
      (([[-7, 3, 0], [5, 2], []] :
          List (List ℤ)).map (fun p => (packCounts 3 p).total)).sum = 5) :=
  ⟨by decide, pack_conservation 3 [[-7, 3, 0], [5, 2], []] 5 (by decide)⟩

/-- Claim C8.  The per-leaf density integral for a constant density of value
k is exactly k times the leaf volume: k * dx * dy in 2-D and
k * dx * dy * dz in 3-D, for every leaf extent. -/
theorem integrate_const (dim3 : Bool) (k : ℚ) (lxyz dxyz : Vec3) :
    integrate dim3 (fun _ _ _ => k) lxyz dxyz =
      if dim3 then k * dxyz 0 * dxyz 1 * dxyz 2 else k * dxyz 0 * dxyz 1 := by
  cases dim3 <;>
    simp [integrate, Fin.sum_univ_three, simpson] <;> ring

/-! ## Runge-Kutta stages (claim C3)

Embedding of the tableaux rk1b .. rk4g and prk (lines 114-128) and of
`rkstage` (lines 446-508). -/

/-- The b coefficients prk[order-1][0] (stage evaluation points). -/
def rkb : ℕ → ℕ → ℚ
  | 2, 0 => 1
  | 3, 0 => 1/3
  | 3, 1 => 2/3
  | 4, 0 => 1/2
  | 4, 1 => 1/2
  | 4, 2 => 1
  | _, _ => 0

/-- The g coefficients prk[order-1][1] (update weights). -/
def rkg : ℕ → ℕ → ℚ
  | 1, 0 => 1
  | 2, 0 => 1/2
  | 2, 1 => 1/2
  | 3, 0 => 1/4
  | 3, 1 => 0
  | 3, 2 => 3/4
  | 4, 0 => 1/6
  | 4, 1 => 1/3
  | 4, 2 => 1/3
  | 4, 3 => 1/6
  | _, _ => 0

/-- Per-particle state pa_data_t: true state xv, staged evaluation point wo,
accumulated increment up. -/
structure PaData where
  xv : Vec6
  wo : Vec6
  up : Vec6

/-- Shallow embedding of rkstage (lines 446-508) for one stage.  The right
hand side rhs abstracts rkrhs.  The code evaluates rhs at xv for stage 0 and
at wo otherwise, stages the next evaluation point when the stage is not the
last, and either starts, extends, or finalizes the accumulated update. -/
def rkstage (order stage : ℕ) (h : ℚ) (rhs : Vec6 → Vec6) (pad : PaData) :
    PaData :=
  let rk := rhs (if stage = 0 then pad.xv else pad.wo)
  let pad1 := if stage + 1 < order then
      { pad with wo := fun i => pad.xv i + h * rkb order stage * rk i }
    else pad
  let d := rkg order stage
  if stage = 0 then
    if 1 < order then { pad1 with up := fun i => d * rk i }
    else { pad1 with xv := fun i => pad1.xv i + h * d * rk i }
  else
    if stage + 1 < order then
      { pad1 with up := fun i => pad1.up i + d * rk i }
    else { pad1 with xv := fun i => pad1.xv i + h * (pad1.up i + d * rk i) }

/-- One full time step: rkstage applied for stages 0 .. order-1, as driven
by the stage loop of sim (lines 1277-1304). -/
def rkStep (order : ℕ) (h : ℚ) (rhs : Vec6 → Vec6) (pad : PaData) : PaData :=
  (List.range order).foldl (fun p s => rkstage order s h rhs p) pad

/-- The stage evaluation points of the claim: e 0 is the pre-step true state
and e (s+1) = x0 + h * b[s] * rhs (e s). -/
def evalPt (order : ℕ) (h : ℚ) (rhs : Vec6 → Vec6) (x0 : Vec6) : ℕ → Vec6
  | 0 => x0
  | s + 1 => fun i => x0 i + h * rkb order s * rhs (evalPt order h rhs x0 s) i

/-- Partial run of the stage loop: stages 0 .. s-1 applied to pad. -/
def rkRun (order : ℕ) (h : ℚ) (rhs : Vec6 → Vec6) (pad : PaData) (s : ℕ) :
    PaData :=
  (List.range s).foldl (fun p t => rkstage order t h rhs p) pad

theorem rkRun_succ (order : ℕ) (h : ℚ) (rhs : Vec6 → Vec6) (pad : PaData)
    (s : ℕ) :
    rkRun order h rhs pad (s + 1) =
      rkstage order s h rhs (rkRun order h rhs pad s) := by
  unfold rkRun
  rw [List.range_succ, List.foldl_append]
  rfl

theorem rkstage_mid (order stage : ℕ) (hst : stage + 1 < order) (h : ℚ)
    (rhs : Vec6 → Vec6) (pad : PaData) :
    (rkstage order stage h rhs pad).xv = pad.xv ∧
    (rkstage order stage h rhs pad).wo = (fun i => pad.xv i +
      h * rkb order stage * rhs (if stage = 0 then pad.xv else pad.wo) i) ∧
    (rkstage order stage h rhs pad).up = (fun i =>
      (if stage = 0 then 0 else pad.up i) +
        rkg order stage * rhs (if stage = 0 then pad.xv else pad.wo) i) := by
  have h1 : stage = 0 → 1 < order := by omega
  by_cases h0 : stage = 0
  · simp [rkstage, h0, hst, h1 h0]
  · simp [rkstage, h0, hst]

theorem rkstage_last (order stage : ℕ) (hst : stage + 1 = order) (h : ℚ)
    (rhs : Vec6 → Vec6) (pad : PaData) :
    (rkstage order stage h rhs pad).xv = (fun i => pad.xv i +
      h * ((if stage = 0 then 0 else pad.up i) +
        rkg order stage * rhs (if stage = 0 then pad.xv else pad.wo) i)) := by
  have hno : ¬ stage + 1 < order := by omega
  by_cases h0 : stage = 0
  · have : ¬ 1 < order := by omega
    funext i
    simp [rkstage, h0, hno, this]
    ring
  · funext i
    simp [rkstage, h0, hno]

theorem rkRun_inv (order : ℕ) (h : ℚ) (rhs : Vec6 → Vec6) (pad : PaData)
    (s : ℕ) (hs : s + 1 < order) :
    (rkRun order h rhs pad (s + 1)).xv = pad.xv ∧
    (rkRun order h rhs pad (s + 1)).wo = evalPt order h rhs pad.xv (s + 1) ∧
    (rkRun order h rhs pad (s + 1)).up = (fun i =>
      ∑ t ∈ Finset.range (s + 1),
        rkg order t * rhs (evalPt order h rhs pad.xv t) i) := by
  induction s with
  | zero =>
      rw [rkRun_succ, show rkRun order h rhs pad 0 = pad from rfl]
      have h0 := rkstage_mid order 0 hs h rhs pad
      refine ⟨h0.1, ?_, ?_⟩
      · rw [h0.2.1]
        funext i
        simp [evalPt]
      · rw [h0.2.2]
        funext i
        simp [Finset.sum_range_one, evalPt]
  | succ s ih =>
      have hs1 : s + 1 < order := by omega
      obtain ⟨ixv, iwo, iup⟩ := ih hs1
      rw [rkRun_succ]
      have hm := rkstage_mid order (s + 1) hs h rhs
        (rkRun order h rhs pad (s + 1))
      have hne : ¬ s + 1 = 0 := by omega
      refine ⟨by rw [hm.1, ixv], ?_, ?_⟩
      · rw [hm.2.1]
        funext i
        simp only [hne, if_neg, ixv, iwo]
        rfl
      · rw [hm.2.2]
        funext i
        simp only [hne, if_neg, iwo, iup, Finset.sum_range_succ]
        simp

theorem rkStep_closed_form (order : ℕ) (hord : 1 ≤ order) (h : ℚ)
    (rhs : Vec6 → Vec6) (pad : PaData) :
    (rkStep order h rhs pad).xv = (fun i => pad.xv i +
      h * ∑ s ∈ Finset.range order,
        rkg order s * rhs (evalPt order h rhs pad.xv s) i) := by
  have hstep : rkStep order h rhs pad = rkRun order h rhs pad order := rfl
  match order, hord with
  | 1, _ =>
      rw [hstep, show (1 : ℕ) = 0 + 1 from rfl, rkRun_succ]
      rw [rkstage_last 1 0 rfl h rhs (rkRun 1 h rhs pad 0)]
      funext i
      simp [rkRun, Finset.sum_range_one, evalPt]
  | (s + 2), _ =>
      have hs1 : s + 1 < s + 2 := by omega
      obtain ⟨ixv, iwo, iup⟩ := rkRun_inv (s + 2) h rhs pad s hs1
      rw [hstep, show s + 2 = (s + 1) + 1 from rfl, rkRun_succ]
      rw [rkstage_last (s + 2) (s + 1) rfl h rhs
        (rkRun (s + 2) h rhs pad (s + 1))]
      funext i
      have hne : ¬ s + 1 = 0 := by omega
      simp only [hne, if_neg, ixv, iwo, iup, Finset.sum_range_succ]
      simp

theorem rkg_weights_sum (order : ℕ) (hord : 1 ≤ order ∧ order ≤ 4) :
    ∑ s ∈ Finset.range order, rkg order s = 1 := by
  obtain ⟨h1, h4⟩ := hord
  interval_cases order <;>
    simp [Finset.sum_range_succ, rkg] <;> norm_num

/-- Claim C3.  For every order 1-4: the staged evaluation point after stage s
(s+1 < order) is x0 + h*b[s]*rhs_s with b from the classical tableau; after
the final stage the true state is its pre-step value plus h times the
g-weighted sum of the stage right-hand sides; and for the constant
right-hand side 1 the displacement is exactly h in every component, since
the g weights of each tableau sum to 1. -/
theorem rkstage_correct (order : ℕ) (hord : 1 ≤ order ∧ order ≤ 4)
    (h : ℚ) (rhs : Vec6 → Vec6) (pad : PaData) :
    (∀ s, s + 1 < order →
      (rkRun order h rhs pad (s + 1)).wo = evalPt order h rhs pad.xv (s + 1)) ∧
    (∀ i, (rkStep order h rhs pad).xv i =
      pad.xv i + h * ∑ s ∈ Finset.range order,
        rkg order s * rhs (evalPt order h rhs pad.xv s) i) ∧
    (∑ s ∈ Finset.range order, rkg order s = 1) ∧
    (∀ i, (rkStep order h (fun _ _ => 1) pad).xv i = pad.xv i + h) := by
  refine ⟨fun s hs => (rkRun_inv order h rhs pad s hs).2.1, ?_, ?_, ?_⟩
  · intro i
    rw [rkStep_closed_form order hord.1 h rhs pad]
  · exact rkg_weights_sum order hord
  · intro i
    rw [rkStep_closed_form order hord.1 h (fun _ _ => 1) pad]
    simp only
    rw [Finset.sum_congr rfl (fun s _ => mul_one (rkg order s)),
      rkg_weights_sum order hord, mul_one]

/-- Witness for C3 at order 4, h = 1, rhs the identity, zero initial data. -/
theorem rkstage_correct_witness :
    ((1 ≤ 4 ∧ 4 ≤ 4) ∧
      ((∀ s, s + 1 < 4 →
        (rkRun 4 1 id ⟨0, 0, 0⟩ (s + 1)).wo
          = evalPt 4 1 id (PaData.xv ⟨0, 0, 0⟩) (s + 1)) ∧
      (∀ i, (rkStep 4 1 id ⟨0, 0, 0⟩).xv i =
        PaData.xv ⟨0, 0, 0⟩ i + 1 * ∑ s ∈ Finset.range 4,
          rkg 4 s * id (evalPt 4 1 id (PaData.xv ⟨0, 0, 0⟩) s) i) ∧
      (∑ s ∈ Finset.range 4, rkg 4 s = 1) ∧
      (∀ i, (rkStep 4 1 (fun _ _ => 1) ⟨0, 0, 0⟩).xv i =
        PaData.xv ⟨0, 0, 0⟩ i + 1))) :=
  ⟨⟨by decide, by decide⟩, rkstage_correct 4 ⟨by decide, by decide⟩ 1 id ⟨0, 0, 0⟩⟩

/-! ## Distributed point search (claim C2)

Embedding of `psearch_point` (lines 536-603).  The p4est search presents a
sequence of (quadrant, pfirst, plast, local_num) visits for each particle;
the callback mutates the particle's found-record pori, the iremain list and
the quadrant's premain counter.  We model the per-particle effect over an
arbitrary visit sequence; the claims field records, in order, the local_num
of each leaf whose premain counter was bumped for this particle. -/

/-- One quadrant visit of the search for a fixed particle. -/
structure PSearchEvent where
  lxyz : Vec3
  hxyz : Vec3
  pfirst : ℤ
  plast : ℤ
  localNum : ℤ

/-- The containment test of psearch_point lines 554-560 (and slocal_point
lines 881-888): every coordinate up to P4EST_DIM lies inside the bounds. -/
def containsPt (dim3 : Bool) (l h x : Vec3) : Prop :=
  (l 0 ≤ x 0 ∧ x 0 ≤ h 0) ∧ (l 1 ≤ x 1 ∧ x 1 ≤ h 1) ∧
    (dim3 = true → (l 2 ≤ x 2 ∧ x 2 ≤ h 2))

instance (dim3 : Bool) (l h x : Vec3) : Decidable (containsPt dim3 l h x) := by
  unfold containsPt; infer_instance

/-- Per-particle search state: the found-record pori and the list of premain
bumps performed for this particle. -/
structure PSearchState where
  pori : ℤ
  claims : List ℤ

/-- Shallow embedding of psearch_point (lines 536-603) acting on one visit. -/
def psearch_point (dim3 : Bool) (mpisize mpirank : ℤ) (x : Vec3)
    (st : PSearchState) (ev : PSearchEvent) : PSearchState :=
  if containsPt dim3 ev.lxyz ev.hxyz x then
    if 0 ≤ ev.localNum then
      if st.pori < mpisize then
        ⟨mpisize + ev.localNum, st.claims ++ [ev.localNum]⟩
      else st
    else if ev.pfirst = ev.plast then
      if ev.pfirst = mpirank then st
      else if st.pori < 0 ∨ (ev.pfirst < st.pori ∧ st.pori < mpisize) then
        ⟨ev.pfirst, st.claims⟩
      else st
    else st
  else st

/-- A whole search round for one particle: pfound is memset to -1 before the
search (sim lines 1316-1320), so pori starts at -1 with no bumps. -/
def psearchRun (dim3 : Bool) (mpisize mpirank : ℤ) (x : Vec3)
    (evs : List PSearchEvent) : PSearchState :=
  evs.foldl (psearch_point dim3 mpisize mpirank x) ⟨-1, []⟩

/-- A visit that hits a local leaf containing the point. -/
def isLocalHit (dim3 : Bool) (x : Vec3) (ev : PSearchEvent) : Prop :=
  containsPt dim3 ev.lxyz ev.hxyz x ∧ 0 ≤ ev.localNum

instance (dim3 : Bool) (x : Vec3) (ev : PSearchEvent) :
    Decidable (isLocalHit dim3 x ev) := by
  unfold isLocalHit; infer_instance

/-- A visit that hits a remote-owned quadrant containing the point. -/
def isRemoteHit (dim3 : Bool) (x : Vec3) (mpirank : ℤ) (ev : PSearchEvent) :
    Prop :=
  containsPt dim3 ev.lxyz ev.hxyz x ∧ ev.localNum < 0 ∧
    ev.pfirst = ev.plast ∧ ev.pfirst ≠ mpirank

instance (dim3 : Bool) (x : Vec3) (mpirank : ℤ) (ev : PSearchEvent) :
    Decidable (isRemoteHit dim3 x mpirank ev) := by
  unfold isRemoteHit; infer_instance

/-- The local leaves containing the point, in visit order. -/
def localHits (dim3 : Bool) (x : Vec3) (evs : List PSearchEvent) :
    List PSearchEvent :=
  evs.filter fun ev => decide (isLocalHit dim3 x ev)

/-- The remote candidate ranks, in visit order. -/
def remoteRanks (dim3 : Bool) (x : Vec3) (mpirank : ℤ)
    (evs : List PSearchEvent) : List ℤ :=
  (evs.filter fun ev => decide (isRemoteHit dim3 x mpirank ev)).map
    PSearchEvent.pfirst

/-- The remote-resolution update of lines 593-596 restricted to states with
pori < mpisize. -/
def remoteUpd (r c : ℤ) : ℤ := if r < 0 ∨ c < r then c else r

/-- Fold of the remote update over the candidate ranks. -/
def remoteFold (r : ℤ) (ranks : List ℤ) : ℤ := ranks.foldl remoteUpd r

/-- Well-formedness of a search visit: a local leaf is owned by this rank,
and a remote match carries a valid foreign rank (asserted in the source at
lines 565 and 590, and guaranteed by the p4est search). -/
def wfEvent (mpisize mpirank : ℤ) (ev : PSearchEvent) : Prop :=
  (0 ≤ ev.localNum → ev.pfirst = mpirank ∧ ev.plast = mpirank) ∧
  (ev.localNum < 0 → ev.pfirst = ev.plast → ev.pfirst ≠ mpirank →
    0 ≤ ev.pfirst ∧ ev.pfirst < mpisize)

instance (mpisize mpirank : ℤ) (ev : PSearchEvent) :
    Decidable (wfEvent mpisize mpirank ev) := by
  unfold wfEvent; infer_instance

theorem psearch_point_stays_local (dim3 : Bool) (mpisize mpirank : ℤ)
    (x : Vec3) (hsz : 0 < mpisize) (st : PSearchState) (ev : PSearchEvent)
    (hloc : mpisize ≤ st.pori) :
    psearch_point dim3 mpisize mpirank x st ev = st := by
  unfold psearch_point
  have h1 : ¬ st.pori < mpisize := by omega
  have h2 : ¬ (st.pori < 0 ∨ (ev.pfirst < st.pori ∧ st.pori < mpisize)) := by
    omega
  by_cases hc : containsPt dim3 ev.lxyz ev.hxyz x
  · rw [if_pos hc]
    by_cases hn : 0 ≤ ev.localNum
    · rw [if_pos hn, if_neg h1]
    · rw [if_neg hn]
      by_cases he : ev.pfirst = ev.plast
      · rw [if_pos he]
        by_cases hm : ev.pfirst = mpirank
        · rw [if_pos hm]
        · rw [if_neg hm, if_neg h2]
      · rw [if_neg he]
  · rw [if_neg hc]

theorem psearch_point_local_claim (dim3 : Bool) (mpisize mpirank : ℤ)
    (x : Vec3) (st : PSearchState) (ev : PSearchEvent)
    (hc : containsPt dim3 ev.lxyz ev.hxyz x) (hn : 0 ≤ ev.localNum)
    (hst : st.pori < mpisize) :
    psearch_point dim3 mpisize mpirank x st ev =
      ⟨mpisize + ev.localNum, st.claims ++ [ev.localNum]⟩ := by
  unfold psearch_point
  rw [if_pos hc, if_pos hn, if_pos hst]

theorem psearch_point_remote (dim3 : Bool) (mpisize mpirank : ℤ)
    (x : Vec3) (st : PSearchState) (ev : PSearchEvent)
    (hc : containsPt dim3 ev.lxyz ev.hxyz x) (hn : ev.localNum < 0)
    (he : ev.pfirst = ev.plast) (hm : ev.pfirst ≠ mpirank)
    (hst : st.pori < mpisize) :
    psearch_point dim3 mpisize mpirank x st ev =
      ⟨remoteUpd st.pori ev.pfirst, st.claims⟩ := by
  unfold psearch_point remoteUpd
  rw [if_pos hc, if_neg (by omega : ¬ 0 ≤ ev.localNum), if_pos he, if_neg hm]
  by_cases hcond : st.pori < 0 ∨ ev.pfirst < st.pori
  · rw [if_pos (by omega), if_pos hcond]
  · rw [if_neg (by omega), if_neg hcond]

theorem psearch_run_stays_local (dim3 : Bool) (mpisize mpirank : ℤ)
    (x : Vec3) (hsz : 0 < mpisize) (st : PSearchState)
    (evs : List PSearchEvent) (hloc : mpisize ≤ st.pori) :
    evs.foldl (psearch_point dim3 mpisize mpirank x) st = st := by
  induction evs with
  | nil => rfl
  | cons ev rest ih =>
      simp only [List.foldl_cons,
        psearch_point_stays_local dim3 mpisize mpirank x hsz st ev hloc, ih]

theorem psearch_point_noop (dim3 : Bool) (mpisize mpirank : ℤ) (x : Vec3)
    (st : PSearchState) (ev : PSearchEvent)
    (hnl : ¬ isLocalHit dim3 x ev) (hnr : ¬ isRemoteHit dim3 x mpirank ev) :
    psearch_point dim3 mpisize mpirank x st ev = st := by
  unfold psearch_point
  by_cases hc : containsPt dim3 ev.lxyz ev.hxyz x
  · rw [if_pos hc]
    have hn : ¬ 0 ≤ ev.localNum := fun h => hnl ⟨hc, h⟩
    rw [if_neg hn]
    by_cases he : ev.pfirst = ev.plast
    · rw [if_pos he]
      have hm : ev.pfirst = mpirank := by
        by_contra hm
        exact hnr ⟨hc, by omega, he, hm⟩
      rw [if_pos hm]
    · rw [if_neg he]
  · rw [if_neg hc]

theorem psearch_run_none (dim3 : Bool) (mpisize mpirank : ℤ) (x : Vec3)
    (hsz : 0 < mpisize) (evs : List PSearchEvent) :
    ∀ (r : ℤ) (cl : List ℤ),
    (∀ ev ∈ evs, wfEvent mpisize mpirank ev) →
    (r = -1 ∨ (0 ≤ r ∧ r < mpisize)) →
    localHits dim3 x evs = [] →
    (evs.foldl (psearch_point dim3 mpisize mpirank x) ⟨r, cl⟩).claims = cl ∧
    (evs.foldl (psearch_point dim3 mpisize mpirank x) ⟨r, cl⟩).pori =
      remoteFold r (remoteRanks dim3 x mpirank evs) := by
  induction evs with
  | nil => intro r cl _ _ _; exact ⟨rfl, rfl⟩
  | cons ev rest ih =>
      intro r cl hwf hcls hnone
      have hwr : ∀ e ∈ rest, wfEvent mpisize mpirank e :=
        fun e he => hwf e (List.mem_cons_of_mem ev he)
      have hnl : ¬ isLocalHit dim3 x ev := by
        intro hl
        simp [localHits, List.filter_cons, hl] at hnone
      have hrestnone : localHits dim3 x rest = [] := by
        simpa [localHits, List.filter_cons, hnl] using hnone
      have hrlt : r < mpisize := by omega
      by_cases hr : isRemoteHit dim3 x mpirank ev
      · obtain ⟨hc, hn, he, hm⟩ := hr
        have hrank := (hwf ev (List.mem_cons_self ev rest)).2 hn he hm
        have hstep := psearch_point_remote dim3 mpisize mpirank x ⟨r, cl⟩ ev
          hc hn he hm hrlt
        have hclass : remoteUpd r ev.pfirst = -1 ∨
            (0 ≤ remoteUpd r ev.pfirst ∧ remoteUpd r ev.pfirst < mpisize) := by
          unfold remoteUpd
          split <;> omega
        have hrem : remoteRanks dim3 x mpirank (ev :: rest) =
            ev.pfirst :: remoteRanks dim3 x mpirank rest := by
          simp [remoteRanks, List.filter_cons,
            show isRemoteHit dim3 x mpirank ev from ⟨hc, hn, he, hm⟩]
        rw [List.foldl_cons, hstep, hrem]
        exact ih (remoteUpd r ev.pfirst) cl hwr hclass hrestnone
      · have hrem : remoteRanks dim3 x mpirank (ev :: rest) =
            remoteRanks dim3 x mpirank rest := by
          simp [remoteRanks, List.filter_cons, hr]
        rw [List.foldl_cons, psearch_point_noop dim3 mpisize mpirank x _ ev
          hnl hr, hrem]
        exact ih r cl hwr hcls hrestnone

theorem psearch_run_some (dim3 : Bool) (mpisize mpirank : ℤ) (x : Vec3)
    (hsz : 0 < mpisize) (evs : List PSearchEvent) :
    ∀ (r : ℤ) (cl : List ℤ) (hd : PSearchEvent),
    (∀ ev ∈ evs, wfEvent mpisize mpirank ev) →
    (r = -1 ∨ (0 ≤ r ∧ r < mpisize)) →
    (localHits dim3 x evs).head? = some hd →
    (evs.foldl (psearch_point dim3 mpisize mpirank x) ⟨r, cl⟩).pori =
      mpisize + hd.localNum ∧
    (evs.foldl (psearch_point dim3 mpisize mpirank x) ⟨r, cl⟩).claims =
      cl ++ [hd.localNum] := by
  induction evs with
  | nil => intro r cl hd _ _ hmem; simp [localHits] at hmem
  | cons ev rest ih =>
      intro r cl hd hwf hcls hhd
      have hwr : ∀ e ∈ rest, wfEvent mpisize mpirank e :=
        fun e he => hwf e (List.mem_cons_of_mem ev he)
      have hrlt : r < mpisize := by omega
      by_cases hl : isLocalHit dim3 x ev
      · have hdev : hd = ev := by
          have : (localHits dim3 x (ev :: rest)).head? = some ev := by
            simp [localHits, List.filter_cons, hl]
          rw [this] at hhd
          exact (Option.some.injEq _ _ ▸ hhd).symm
        subst hdev
        obtain ⟨hc, hn⟩ := hl
        have hstep := psearch_point_local_claim dim3 mpisize mpirank x
          ⟨r, cl⟩ hd hc hn hrlt
        rw [List.foldl_cons, hstep,
          psearch_run_stays_local dim3 mpisize mpirank x hsz _ rest
            (by simp only; omega)]
        exact ⟨rfl, rfl⟩
      · have hrest : (localHits dim3 x rest).head? = some hd := by
          simpa [localHits, List.filter_cons, hl] using hhd
        by_cases hr : isRemoteHit dim3 x mpirank ev
        · obtain ⟨hc, hn, he, hm⟩ := hr
          have hrank := (hwf ev (List.mem_cons_self ev rest)).2 hn he hm
          have hstep := psearch_point_remote dim3 mpisize mpirank x ⟨r, cl⟩
            ev hc hn he hm hrlt
          have hclass : remoteUpd r ev.pfirst = -1 ∨
              (0 ≤ remoteUpd r ev.pfirst ∧ remoteUpd r ev.pfirst < mpisize) := by
            unfold remoteUpd
            split <;> omega
          rw [List.foldl_cons, hstep]
          exact ih (remoteUpd r ev.pfirst) cl hd hwr hclass hrest
        · rw [List.foldl_cons, psearch_point_noop dim3 mpisize mpirank x _ ev
            hl hr]
          exact ih r cl hd hwr hcls hrest

theorem remoteFold_min_key (l : List ℤ) :
    ∀ a : ℤ, (∀ c ∈ l, 0 ≤ c) → 0 ≤ a →
      l.foldl remoteUpd a ∈ a :: l ∧ ∀ c ∈ a :: l, l.foldl remoteUpd a ≤ c := by
  induction l with
  | nil => intro a _ _; simp
  | cons b bs ih =>
      intro a hpos ha
      have hb : 0 ≤ b := hpos b (List.mem_cons_self b bs)
      have hbs : ∀ d ∈ bs, 0 ≤ d :=
        fun d hd => hpos d (List.mem_cons_of_mem b hd)
      have hupd : remoteUpd a b = min a b := by
        unfold remoteUpd
        split <;> omega
      obtain ⟨hmem, hle⟩ := ih (remoteUpd a b) hbs (by rw [hupd]; omega)
      have hfold : (b :: bs).foldl remoteUpd a = bs.foldl remoteUpd
          (remoteUpd a b) := rfl
      constructor
      · rw [hfold]
        rcases List.mem_cons.mp hmem with h1 | h1
        · rw [h1, hupd]
          rcases min_choice a b with hm | hm
          · rw [hm]; exact List.mem_cons_self _ _
          · rw [hm]
            exact List.mem_cons_of_mem _ (List.mem_cons_self _ _)
        · exact List.mem_cons_of_mem _ (List.mem_cons_of_mem _ h1)
      · intro c hcmem
        rw [hfold]
        have hle2 : bs.foldl remoteUpd (remoteUpd a b) ≤ remoteUpd a b :=
          hle _ (List.mem_cons_self _ _)
        rcases List.mem_cons.mp hcmem with h1 | h1
        · rw [h1]
          exact le_trans hle2 (hupd ▸ min_le_left a b)
        · rcases List.mem_cons.mp h1 with h2 | h2
          · rw [h2]
            exact le_trans hle2 (hupd ▸ min_le_right a b)
          · exact hle c (List.mem_cons_of_mem _ h2)

theorem remoteFold_min (ranks : List ℤ) (hr : ∀ c ∈ ranks, 0 ≤ c) :
    (ranks = [] → remoteFold (-1) ranks = -1) ∧
    (ranks ≠ [] → remoteFold (-1) ranks ∈ ranks ∧
      ∀ c ∈ ranks, remoteFold (-1) ranks ≤ c) := by
  constructor
  · intro h; subst h; rfl
  · intro hne
    match ranks, hne, hr with
    | c :: cs, _, hr =>
        have hc : 0 ≤ c := hr c (List.mem_cons_self c cs)
        have hcs : ∀ d ∈ cs, 0 ≤ d :=
          fun d hd => hr d (List.mem_cons_of_mem c hd)
        have hfirst : remoteFold (-1) (c :: cs) = cs.foldl remoteUpd c := by
          have h1 : remoteUpd (-1) c = c := by
            unfold remoteUpd
            rw [if_pos (Or.inl (by norm_num))]
          unfold remoteFold
          rw [List.foldl_cons, h1]
        obtain ⟨hmem, hle⟩ := remoteFold_min_key cs c hcs hc
        rw [hfirst]
        exact ⟨hmem, fun d hd => hle d hd⟩

/-- Claim C2.  In the distributed point search: a record holding a local
resolution (pori ≥ mpisize) is never changed by any later visit; when some
local leaf containing the point is visited, the first such leaf claims the
particle, its premain counter is bumped exactly once (claims list = that
single leaf), and the final record is mpisize + local_num of that leaf even
if remote matches occurred before or after (a local match overwrites a
remote resolution); when no local leaf contains the point, no premain bump
happens and the record ends at the lowest remote candidate rank, or stays -1
if there is no candidate. -/
theorem psearch_point_policy (dim3 : Bool) (mpisize mpirank : ℤ) (x : Vec3)
    (evs : List PSearchEvent) (hsz : 0 < mpisize)
    (hwf : ∀ ev ∈ evs, wfEvent mpisize mpirank ev) :
    (∀ st ev, mpisize ≤ st.pori →
      psearch_point dim3 mpisize mpirank x st ev = st) ∧
    (∀ hd, (localHits dim3 x evs).head? = some hd →
      (psearchRun dim3 mpisize mpirank x evs).pori = mpisize + hd.localNum ∧
      (psearchRun dim3 mpisize mpirank x evs).claims = [hd.localNum]) ∧
    (localHits dim3 x evs = [] →
      (psearchRun dim3 mpisize mpirank x evs).claims = [] ∧
      (remoteRanks dim3 x mpirank evs = [] →
        (psearchRun dim3 mpisize mpirank x evs).pori = -1) ∧
      (remoteRanks dim3 x mpirank evs ≠ [] →
        (psearchRun dim3 mpisize mpirank x evs).pori ∈
          remoteRanks dim3 x mpirank evs ∧
        ∀ c ∈ remoteRanks dim3 x mpirank evs,
          (psearchRun dim3 mpisize mpirank x evs).pori ≤ c)) := by
  have hranks : ∀ c ∈ remoteRanks dim3 x mpirank evs, 0 ≤ c := by
    intro c hc
    simp only [remoteRanks, List.mem_map, List.mem_filter] at hc
    obtain ⟨ev, ⟨hmem, hhit⟩, hc⟩ := hc
    have hhit2 : isRemoteHit dim3 x mpirank ev := of_decide_eq_true hhit
    obtain ⟨_, hn, he, hm⟩ := hhit2
    have := (hwf ev hmem).2 hn he hm
    omega
  refine ⟨fun st ev hloc =>
      psearch_point_stays_local dim3 mpisize mpirank x hsz st ev hloc,
    fun hd hhd => ?_, fun hnone => ?_⟩
  · exact psearch_run_some dim3 mpisize mpirank x hsz evs (-1) [] hd hwf
      (Or.inl rfl) hhd
  · obtain ⟨hcl, hpori⟩ := psearch_run_none dim3 mpisize mpirank x hsz evs
      (-1) [] hwf (Or.inl rfl) hnone
    obtain ⟨hemp, hne⟩ := remoteFold_min (remoteRanks dim3 x mpirank evs)
      hranks
    refine ⟨hcl, fun h => ?_, fun h => ?_⟩
    · show (List.foldl (psearch_point dim3 mpisize mpirank x)
        ⟨-1, []⟩ evs).pori = -1
      rw [hpori, hemp h]
    · show _ ∧ _
      rw [show (psearchRun dim3 mpisize mpirank x evs).pori =
        remoteFold (-1) (remoteRanks dim3 x mpirank evs) from hpori]
      exact hne h

/-- Concrete remote visit used by the C2 witness. -/
def evRemote : PSearchEvent := ⟨![0, 0, 0], ![1, 1, 1], 1, 1, -1⟩

/-- Concrete local-leaf visit used by the C2 witness. -/
def evLocal : PSearchEvent := ⟨![0, 0, 0], ![1, 1, 1], 0, 0, 5⟩

/-- Witness for C2: two processes, a remote visit followed by a local leaf
visit, both containing the point. -/
theorem psearch_point_policy_witness :
    ((0 : ℤ) < 2 ∧ (∀ ev ∈ [evRemote, evLocal], wfEvent 2 0 ev)) ∧
    ((∀ st ev, (2 : ℤ) ≤ st.pori →
      psearch_point false 2 0 ![1/2, 1/2, 0] st ev = st) ∧
    (∀ hd, (localHits false ![1/2, 1/2, 0] [evRemote, evLocal]).head? =
        some hd →
      (psearchRun false 2 0 ![1/2, 1/2, 0] [evRemote, evLocal]).pori =
        2 + hd.localNum ∧
      (psearchRun false 2 0 ![1/2, 1/2, 0] [evRemote, evLocal]).claims =
        [hd.localNum]) ∧
    (localHits false ![1/2, 1/2, 0] [evRemote, evLocal] = [] →
      (psearchRun false 2 0 ![1/2, 1/2, 0] [evRemote, evLocal]).claims = [] ∧
      (remoteRanks false ![1/2, 1/2, 0] 0 [evRemote, evLocal] = [] →
        (psearchRun false 2 0 ![1/2, 1/2, 0] [evRemote, evLocal]).pori = -1) ∧
      (remoteRanks false ![1/2, 1/2, 0] 0 [evRemote, evLocal] ≠ [] →
        (psearchRun false 2 0 ![1/2, 1/2, 0] [evRemote, evLocal]).pori ∈
          remoteRanks false ![1/2, 1/2, 0] 0 [evRemote, evLocal] ∧
        ∀ c ∈ remoteRanks false ![1/2, 1/2, 0] 0 [evRemote, evLocal],
          (psearchRun false 2 0 ![1/2, 1/2, 0] [evRemote, evLocal]).pori
            ≤ c))) :=
  ⟨⟨by decide, by decide⟩,
    psearch_point_policy false 2 0 ![1/2, 1/2, 0] [evRemote, evLocal]
      (by decide) (by decide)⟩

/-! ## Coarsen decision and merge (claim C4)

Embedding of `use_coarsen` (lines 911-951) for a complete sibling family and
of the coarsening branch of `use_replace` (lines 1039-1060). -/

/-- Per-quadrant payload qu_data_t: cumulative particle offset lpend and the
transient counters premain, preceive. -/
structure QuData where
  lpend : ℤ
  premain : ℤ
  preceive : ℤ
deriving DecidableEq, Repr

/-- The merge decision of use_coarsen lines 931-941: sum premain and
preceive over the siblings and compare with .5 * elem_particles. -/
def use_coarsen_decision (elem : ℚ) (sibs : List QuData) : Bool :=
  decide ((((sibs.map QuData.premain).sum +
    (sibs.map QuData.preceive).sum : ℤ) : ℚ) < 1/2 * elem)

/-- The merged parent built by the coarsening branch of use_replace (lines
1053-1059): lpend of the last sibling, premain = qremain (the sum computed
in use_coarsen), preceive marked invalid (-1). -/
def coarsenParent (sibs : List QuData) : QuData :=
  { lpend := ((sibs.getLast?).map QuData.lpend).getD 0
  , premain := (sibs.map QuData.premain).sum
  , preceive := -1 }

/-- The combined effect on a sibling family: some parent when the family is
merged, none when it is kept. -/
def useCoarsenStep (elem : ℚ) (sibs : List QuData) : Option QuData :=
  if use_coarsen_decision elem sibs then some (coarsenParent sibs) else none

theorem sum_map_add_qu (sibs : List QuData) :
    (sibs.map (fun q => q.premain + q.preceive)).sum =
      (sibs.map QuData.premain).sum + (sibs.map QuData.preceive).sum := by
  induction sibs with
  | nil => simp
  | cons q qs ih => simp [ih]; ring

/-- Claim C4.  A sibling group is merged if and only if the sum over all
siblings of premain + preceive is strictly less than half the target
particles-per-leaf, and the merged parent's lpend equals the last sibling's
lpend while its premain equals the sum of the siblings' premain counts. -/
theorem use_coarsen_merge (elem : ℚ) (sibs : List QuData) (hne : sibs ≠ []) :
    ((useCoarsenStep elem sibs).isSome ↔
      (((sibs.map (fun q => q.premain + q.preceive)).sum : ℤ) : ℚ)
        < elem / 2) ∧
    (∀ p, useCoarsenStep elem sibs = some p →
      p.lpend = (sibs.getLast hne).lpend ∧
      p.premain = (sibs.map QuData.premain).sum) := by
  constructor
  · have hrw : ((((sibs.map (fun q => q.premain + q.preceive)).sum : ℤ) : ℚ)
        < elem / 2) ↔
        ((((sibs.map QuData.premain).sum +
          (sibs.map QuData.preceive).sum : ℤ) : ℚ) < 1/2 * elem) := by
      rw [sum_map_add_qu]
      constructor <;> intro h <;> linarith
    rw [hrw]
    unfold useCoarsenStep
    by_cases hcond : use_coarsen_decision elem sibs = true
    · rw [if_pos hcond]
      simp only [Option.isSome_some, true_iff]
      exact of_decide_eq_true hcond
    · rw [if_neg hcond]
      simp only [Option.isSome_none, Bool.false_eq_true, false_iff]
      intro hc
      exact hcond (decide_eq_true hc)
  · intro p hp
    unfold useCoarsenStep at hp
    by_cases hcond : use_coarsen_decision elem sibs = true
    · rw [if_pos hcond] at hp
      have hpp : p = coarsenParent sibs := by
        exact (Option.some.injEq _ _ ▸ hp).symm
      subst hpp
      refine ⟨?_, rfl⟩
      unfold coarsenParent
      rw [List.getLast?_eq_getLast sibs hne]
      rfl
    · rw [if_neg hcond] at hp
      exact absurd hp (by simp)

/-- Witness for C4: a family of four siblings, target elem_particles = 20,
total premain + preceive = 6 < 10, merged. -/
theorem use_coarsen_merge_witness :
    (([⟨3, 1, 0⟩, ⟨5, 2, 1⟩, ⟨6, 0, 1⟩, ⟨9, 1, 0⟩] : List QuData) ≠ []) ∧
    (((useCoarsenStep 20 [⟨3, 1, 0⟩, ⟨5, 2, 1⟩, ⟨6, 0, 1⟩, ⟨9, 1, 0⟩]).isSome
        ↔ (((([⟨3, 1, 0⟩, ⟨5, 2, 1⟩, ⟨6, 0, 1⟩, ⟨9, 1, 0⟩] :
          List QuData).map (fun q => q.premain + q.preceive)).sum : ℤ) : ℚ)
            < 20 / 2) ∧
      (∀ p, useCoarsenStep 20 [⟨3, 1, 0⟩, ⟨5, 2, 1⟩, ⟨6, 0, 1⟩, ⟨9, 1, 0⟩]
          = some p →
        p.lpend = (([⟨3, 1, 0⟩, ⟨5, 2, 1⟩, ⟨6, 0, 1⟩, ⟨9, 1, 0⟩] :
            List QuData).getLast (by decide)).lpend ∧
        p.premain = (([⟨3, 1, 0⟩, ⟨5, 2, 1⟩, ⟨6, 0, 1⟩, ⟨9, 1, 0⟩] :
            List QuData).map QuData.premain).sum)) :=
  ⟨by decide,
    use_coarsen_merge 20 [⟨3, 1, 0⟩, ⟨5, 2, 1⟩, ⟨6, 0, 1⟩, ⟨9, 1, 0⟩]
      (by decide)⟩

/-! ## Refinement redistribution (claim C5)

Embedding of `split_by_coord` (lines 981-1015) and of the refinement branch
of `use_replace` (lines 1061-1145).  lookfor abstracts particle_lookfor: the
authoritative coordinates of a stored particle index. -/

/-- Shallow embedding of split_by_coord: indices whose coordinate in the
given component is at most the leaf midpoint (lower corner plus half
extent) are pushed onto the low output, the rest onto the high output, in
input order. -/
def split_by_coord (lookfor : ℤ → Vec3) (inl : List ℤ) (component : Fin 3)
    (lxyz dxyz : Vec3) : List ℤ × List ℤ :=
  inl.foldl (fun out ppos =>
    if lookfor ppos component ≤ lxyz component + 1/2 * dxyz component
    then (out.1 ++ [ppos], out.2)
    else (out.1, out.2 ++ [ppos])) ([], [])

/-- The two output windows of one bisection, low child first. -/
def splitTwo (lookfor : ℤ → Vec3) (lxyz dxyz : Vec3) (component : Fin 3)
    (l : List ℤ) : List (List ℤ) :=
  [(split_by_coord lookfor l component lxyz dxyz).1,
   (split_by_coord lookfor l component lxyz dxyz).2]

/-- The recursive bisection of the refinement branch of use_replace (lines
1087-1130): by axis 2 first in the octree build, then axis 1, then axis 0;
the resulting windows appear in child order 4*wz + 2*wy + wx. -/
def childWindows (dim3 : Bool) (lookfor : ℤ → Vec3) (lxyz dxyz : Vec3)
    (iview : List ℤ) : List (List ℤ) :=
  ((if dim3 then splitTwo lookfor lxyz dxyz 2 iview else [iview]).map
    (fun kpart => ((splitTwo lookfor lxyz dxyz 1 kpart).map
      (fun jpart => splitTwo lookfor lxyz dxyz 0 jpart)).flatten)).flatten

/-- A child leaf produced by the refinement branch: it inherits the parent's
lpend unchanged and gets the length of its window as premain (lines
1114-1123). -/
structure PChild where
  lpend : ℤ
  premain : ℤ
deriving DecidableEq, Repr

/-- The refinement branch of use_replace: the child records in child order,
and the contents written back over the parent's iremain window. -/
def use_replace_refine (dim3 : Bool) (lookfor : ℤ → Vec3) (lxyz dxyz : Vec3)
    (qod : QuData) (iview : List ℤ) : List PChild × List ℤ :=
  ((childWindows dim3 lookfor lxyz dxyz iview).map
    (fun w => ⟨qod.lpend, (w.length : ℤ)⟩),
   (childWindows dim3 lookfor lxyz dxyz iview).flatten)

theorem split_by_coord_spec (lookfor : ℤ → Vec3) (lxyz dxyz : Vec3)
    (component : Fin 3) (inl : List ℤ) :
    split_by_coord lookfor inl component lxyz dxyz =
      (inl.filter (fun p => decide (lookfor p component ≤
        lxyz component + 1/2 * dxyz component)),
       inl.filter (fun p => ! decide (lookfor p component ≤
        lxyz component + 1/2 * dxyz component))) := by
  have key : ∀ (l : List ℤ) (a b : List ℤ),
      l.foldl (fun out ppos =>
        if lookfor ppos component ≤ lxyz component + 1/2 * dxyz component
        then (out.1 ++ [ppos], out.2)
        else (out.1, out.2 ++ [ppos])) (a, b) =
      (a ++ l.filter (fun p => decide (lookfor p component ≤
        lxyz component + 1/2 * dxyz component)),
       b ++ l.filter (fun p => ! decide (lookfor p component ≤
        lxyz component + 1/2 * dxyz component))) := by
    intro l
    induction l with
    | nil => intro a b; simp
    | cons p ps ih =>
        intro a b
        by_cases hp : lookfor p component ≤
            lxyz component + 1/2 * dxyz component
        · simp only [List.foldl_cons, if_pos hp, ih, List.filter_cons,
            decide_eq_true hp]
          simp
        · simp only [List.foldl_cons, if_neg hp, ih, List.filter_cons,
            decide_eq_false hp]
          simp
  unfold split_by_coord
  simpa using key inl [] []

theorem splitTwo_flatten_perm (lookfor : ℤ → Vec3) (lxyz dxyz : Vec3)
    (component : Fin 3) (l : List ℤ) :
    (splitTwo lookfor lxyz dxyz component l).flatten.Perm l := by
  unfold splitTwo
  rw [split_by_coord_spec]
  simpa using List.filter_append_perm _ l

theorem flatten_map_perm (f : List ℤ → List (List ℤ))
    (hf : ∀ l, (f l).flatten.Perm l) (parts : List (List ℤ)) :
    ((parts.map f).flatten).flatten.Perm parts.flatten := by
  induction parts with
  | nil => simp
  | cons p ps ih =>
      simp only [List.map_cons, List.flatten_cons, List.flatten_append]
      exact List.Perm.append (hf p) ih

theorem childWindows_flatten_perm (dim3 : Bool) (lookfor : ℤ → Vec3)
    (lxyz dxyz : Vec3) (iview : List ℤ) :
    (childWindows dim3 lookfor lxyz dxyz iview).flatten.Perm iview := by
  have hF : ∀ l : List ℤ,
      ((fun kpart => ((splitTwo lookfor lxyz dxyz 1 kpart).map
        (fun jpart => splitTwo lookfor lxyz dxyz 0 jpart)).flatten) l).flatten.Perm
        l := by
    intro l
    have h1 := flatten_map_perm (splitTwo lookfor lxyz dxyz 0)
      (splitTwo_flatten_perm lookfor lxyz dxyz 0)
      (splitTwo lookfor lxyz dxyz 1 l)
    exact h1.trans (splitTwo_flatten_perm lookfor lxyz dxyz 1 l)
  have hmain := flatten_map_perm _ hF
    (if dim3 then splitTwo lookfor lxyz dxyz 2 iview else [iview])
  unfold childWindows
  refine hmain.trans ?_
  cases dim3 with
  | false => simp
  | true =>
      simpa using splitTwo_flatten_perm lookfor lxyz dxyz 2 iview


theorem sum_map_length_cast (ws : List (List ℤ)) :
    (ws.map (fun w => (w.length : ℤ))).sum = ((ws.map List.length).sum : ℤ) := by
  induction ws with
  | nil => simp
  | cons w rest ih => simp [ih]

/-- Claim C5.  When a leaf is split, its retained-index window is
partitioned by recursive midpoint bisection (third axis first in the octree
build, then second, then first), an index goes low exactly when its
authoritative coordinate is at most the midpoint (lower corner plus half
extent), every index lands in exactly one child window (the concatenation
of the windows is a permutation of the input window), the children's
premain counts sum to the parent's premain, and every child inherits the
parent's lpend unchanged. -/
theorem use_replace_refine_partition (dim3 : Bool) (lookfor : ℤ → Vec3)
    (lxyz dxyz : Vec3) (qod : QuData) (iview : List ℤ)
    (hprem : qod.premain = (iview.length : ℤ)) :
    (∀ (inl : List ℤ) (c : Fin 3), split_by_coord lookfor inl c lxyz dxyz =
      (inl.filter (fun p => decide (lookfor p c ≤ lxyz c + 1/2 * dxyz c)),
       inl.filter (fun p => ! decide (lookfor p c ≤ lxyz c + 1/2 * dxyz c)))) ∧
    ((use_replace_refine dim3 lookfor lxyz dxyz qod iview).2.Perm iview) ∧
    ((use_replace_refine dim3 lookfor lxyz dxyz qod iview).1.length =
      if dim3 then 8 else 4) ∧
    (((use_replace_refine dim3 lookfor lxyz dxyz qod iview).1.map
      PChild.premain).sum = qod.premain) ∧
    (∀ ch ∈ (use_replace_refine dim3 lookfor lxyz dxyz qod iview).1,
      ch.lpend = qod.lpend) := by
  refine ⟨fun inl c => split_by_coord_spec lookfor lxyz dxyz c inl,
    childWindows_flatten_perm dim3 lookfor lxyz dxyz iview, ?_, ?_, ?_⟩
  · cases dim3 <;> simp [use_replace_refine, childWindows, splitTwo]
  · have hperm := childWindows_flatten_perm dim3 lookfor lxyz dxyz iview
    have hlen : (childWindows dim3 lookfor lxyz dxyz iview).flatten.length =
        iview.length := hperm.length_eq
    have hsum : ((childWindows dim3 lookfor lxyz dxyz iview).map
        List.length).sum = iview.length := by
      rw [← List.length_flatten]
      exact hlen
    show ((((childWindows dim3 lookfor lxyz dxyz iview).map
      (fun w => (⟨qod.lpend, (w.length : ℤ)⟩ : PChild))).map
        PChild.premain).sum) = qod.premain
    rw [List.map_map]
    have hcomp : (PChild.premain ∘ fun w : List ℤ =>
        (⟨qod.lpend, (w.length : ℤ)⟩ : PChild)) =
        fun w : List ℤ => (w.length : ℤ) := rfl
    rw [hcomp, sum_map_length_cast, hsum, hprem]
  · intro ch hch
    simp only [use_replace_refine, List.mem_map] at hch
    obtain ⟨w, _, hw⟩ := hch
    rw [← hw]

/-- Witness for C5: the 2-D build, three retained indices with coordinates
0, 1/4 and 3/4 along the first axis, parent lpend 7 and premain 3. -/
theorem use_replace_refine_partition_witness :
    ((⟨7, 3, 0⟩ : QuData).premain = (([0, 1, 3] : List ℤ).length : ℤ)) ∧
    ((∀ (inl : List ℤ) (c : Fin 3),
      split_by_coord (fun i => ![(i : ℚ)/4, 0, 0]) inl c ![0,0,0] ![1,1,1] =
      (inl.filter (fun p => decide ((fun i : ℤ => (![(i : ℚ)/4, 0, 0] : Vec3)) p c ≤
        (![0,0,0] : Vec3) c + 1/2 * (![1,1,1] : Vec3) c)),
       inl.filter (fun p => ! decide ((fun i : ℤ => (![(i : ℚ)/4, 0, 0] : Vec3)) p c ≤
        (![0,0,0] : Vec3) c + 1/2 * (![1,1,1] : Vec3) c)))) ∧
    ((use_replace_refine false (fun i => ![(i : ℚ)/4, 0, 0]) ![0,0,0]
      ![1,1,1] ⟨7, 3, 0⟩ [0, 1, 3]).2.Perm [0, 1, 3]) ∧
    ((use_replace_refine false (fun i => ![(i : ℚ)/4, 0, 0]) ![0,0,0]
      ![1,1,1] ⟨7, 3, 0⟩ [0, 1, 3]).1.length = if false then 8 else 4) ∧
    (((use_replace_refine false (fun i => ![(i : ℚ)/4, 0, 0]) ![0,0,0]
      ![1,1,1] ⟨7, 3, 0⟩ [0, 1, 3]).1.map PChild.premain).sum =
        (⟨7, 3, 0⟩ : QuData).premain) ∧
    (∀ ch ∈ (use_replace_refine false (fun i => ![(i : ℚ)/4, 0, 0]) ![0,0,0]
      ![1,1,1] ⟨7, 3, 0⟩ [0, 1, 3]).1,
      ch.lpend = (⟨7, 3, 0⟩ : QuData).lpend)) :=
  ⟨by decide,
    use_replace_refine_partition false (fun i => ![(i : ℚ)/4, 0, 0])
      ![0,0,0] ![1,1,1] ⟨7, 3, 0⟩ [0, 1, 3] (by decide)⟩

/-! ## Cursor invariants of the coarsen and refine passes (claim C6)

The callbacks use_coarsen (911-951), use_refine (953-979) and use_replace
(1017-1146) are driven by p4est_coarsen_ext / p4est_refine_ext from `use`
(1148-1207), which are not under src/.  Modelled from the spec: the Forest's
generic coarsen traversal presents each leaf to the per-sibling-group
predicate either inside a complete sibling group or individually (the
counting call with quadrants[1] == NULL); when a group is merged the replace
callback fires (setting the running offset cursor to the parent's lpend,
line 1055) and the new parent is subsequently presented individually once;
when a group is rejected its first sibling is accounted by the rejection
branch (lines 943-950) and the remaining siblings are presented
individually.  The refine traversal (non-recursive) presents each leaf to
the predicate once; both predicate branches advance the cursors by the
leaf's lpend and premain, and the replace callback for a split does not
touch the cursors. -/

/-- One unit of the coarsen traversal: a leaf presented individually or a
complete sibling family. -/
inductive CoGroup where
  | single (q : QuData)
  | family (sibs : List QuData)
deriving DecidableEq

/-- The leaves of the pre-pass forest, in traversal order. -/
def flattenGroups : List CoGroup → List QuData
  | [] => []
  | CoGroup.single q :: gs => q :: flattenGroups gs
  | CoGroup.family sibs :: gs => sibs ++ flattenGroups gs

/-- lpend of the last leaf (0 for an empty forest). -/
def lastLpend (leaves : List QuData) : ℤ :=
  ((leaves.getLast?).map QuData.lpend).getD 0

/-- Sum of the premain counters. -/
def premainSum (leaves : List QuData) : ℤ :=
  (leaves.map QuData.premain).sum

/-- Cursor effect of presenting one leaf individually: the counting branch
of use_coarsen (lines 922-929), identical to its rejection branch
(lines 943-950): prevlp := lpend, irindex += premain. -/
def coarsenCursorStep (st : ℤ × ℤ) (q : QuData) : ℤ × ℤ :=
  (q.lpend, st.2 + q.premain)

/-- Cursor effect of one traversal unit of the coarsen pass. -/
def coarsenGroupStep (elem : ℚ) (st : ℤ × ℤ) : CoGroup → ℤ × ℤ
  | CoGroup.single q => coarsenCursorStep st q
  | CoGroup.family sibs =>
      if use_coarsen_decision elem sibs then
        coarsenCursorStep st (coarsenParent sibs)
      else
        sibs.foldl coarsenCursorStep st

/-- The whole coarsen pass with cursors reset to 0 (use lines 1168-1170). -/
def coarsenPass (elem : ℚ) (groups : List CoGroup) : ℤ × ℤ :=
  groups.foldl (coarsenGroupStep elem) (0, 0)

/-- The leaves of the post-coarsen forest. -/
def coarsenResult (elem : ℚ) : List CoGroup → List QuData
  | [] => []
  | CoGroup.single q :: gs => q :: coarsenResult elem gs
  | CoGroup.family sibs :: gs =>
      (if use_coarsen_decision elem sibs then [coarsenParent sibs] else sibs)
        ++ coarsenResult elem gs

/-- The four cursors threaded through the refine pass. -/
structure RefineCursors where
  prevlp : ℤ
  prev2 : ℤ
  irindex : ℤ
  ir2 : ℤ
deriving DecidableEq, Repr

/-- Shallow embedding of use_refine (lines 953-979): both branches set
prevlp := lpend and advance irindex by premain; the refining branch also
saves the previous cursor values for use_replace. -/
def use_refine_step (elem : ℚ) (st : RefineCursors) (q : QuData) :
    RefineCursors :=
  if ((q.premain + q.preceive : ℤ) : ℚ) > elem then
    { prev2 := st.prevlp, prevlp := q.lpend,
      ir2 := st.irindex, irindex := st.irindex + q.premain }
  else
    { st with prevlp := q.lpend, irindex := st.irindex + q.premain }

/-- The whole refine pass with cursors reset to 0 (use lines 1175-1178). -/
def refinePass (elem : ℚ) (leaves : List QuData) : RefineCursors :=
  leaves.foldl (use_refine_step elem) ⟨0, 0, 0, 0⟩

theorem lastLpend_cons (q : QuData) (qs : List QuData) (h : qs ≠ []) :
    lastLpend (q :: qs) = lastLpend qs := by
  unfold lastLpend
  match qs, h with
  | b :: l, _ => rw [List.getLast?_cons_cons]

theorem lastLpend_append (a b : List QuData) (hb : b ≠ []) :
    lastLpend (a ++ b) = lastLpend b := by
  unfold lastLpend
  rw [List.getLast?_append_of_ne_nil a hb]

theorem premainSum_append (a b : List QuData) :
    premainSum (a ++ b) = premainSum a + premainSum b := by
  simp [premainSum]

theorem coarsenCursor_foldl (leaves : List QuData) : ∀ st : ℤ × ℤ,
    (leaves.foldl coarsenCursorStep st).2 = st.2 + premainSum leaves ∧
    (leaves.foldl coarsenCursorStep st).1 =
      (if leaves = [] then st.1 else lastLpend leaves) := by
  induction leaves with
  | nil => intro st; simp [premainSum]
  | cons q qs ih =>
      intro st
      obtain ⟨h2, h1⟩ := ih (coarsenCursorStep st q)
      rw [List.foldl_cons]
      constructor
      · rw [h2]
        simp only [coarsenCursorStep, premainSum, List.map_cons,
          List.sum_cons]
        ring
      · rw [h1]
        by_cases hqs : qs = []
        · subst hqs
          simp [coarsenCursorStep, lastLpend]
        · rw [if_neg hqs, if_neg (by simp),
            lastLpend_cons q qs hqs]

theorem coarsenGroupStep_effect (elem : ℚ) (st : ℤ × ℤ) (g : CoGroup)
    (hfam : ∀ sibs, g = CoGroup.family sibs → sibs ≠ []) :
    (coarsenGroupStep elem st g).2 = st.2 + premainSum (flattenGroups [g]) ∧
    (coarsenGroupStep elem st g).1 = lastLpend (flattenGroups [g]) ∧
    flattenGroups [g] ≠ [] := by
  cases g with
  | single q =>
      refine ⟨?_, ?_, by simp [flattenGroups]⟩
      · simp [coarsenGroupStep, coarsenCursorStep, flattenGroups, premainSum]
      · simp [coarsenGroupStep, coarsenCursorStep, flattenGroups, lastLpend]
  | family sibs =>
      have hne : sibs ≠ [] := hfam sibs rfl
      have hflat : flattenGroups [CoGroup.family sibs] = sibs := by
        simp [flattenGroups]
      rw [hflat]
      by_cases hdec : use_coarsen_decision elem sibs = true
      · have hstep : coarsenGroupStep elem st (CoGroup.family sibs) =
            coarsenCursorStep st (coarsenParent sibs) := by
          show (if use_coarsen_decision elem sibs = true
            then coarsenCursorStep st (coarsenParent sibs)
            else sibs.foldl coarsenCursorStep st) = _
          rw [if_pos hdec]
        rw [hstep]
        refine ⟨?_, ?_, hne⟩
        · simp [coarsenCursorStep, coarsenParent, premainSum]
        · simp [coarsenCursorStep, coarsenParent, lastLpend]
      · have hstep : coarsenGroupStep elem st (CoGroup.family sibs) =
            sibs.foldl coarsenCursorStep st := by
          show (if use_coarsen_decision elem sibs = true
            then coarsenCursorStep st (coarsenParent sibs)
            else sibs.foldl coarsenCursorStep st) = _
          rw [if_neg hdec]
        rw [hstep]
        obtain ⟨h2, h1⟩ := coarsenCursor_foldl sibs st
        exact ⟨h2, by rw [h1, if_neg hne], hne⟩

theorem coarsenPass_foldl (elem : ℚ) : ∀ (groups : List CoGroup)
    (st : ℤ × ℤ),
    (∀ g ∈ groups, ∀ sibs, g = CoGroup.family sibs → sibs ≠ []) →
    (groups.foldl (coarsenGroupStep elem) st).2 =
      st.2 + premainSum (flattenGroups groups) ∧
    (groups.foldl (coarsenGroupStep elem) st).1 =
      (if flattenGroups groups = [] then st.1
       else lastLpend (flattenGroups groups)) := by
  intro groups
  induction groups with
  | nil => intro st _; simp [flattenGroups, premainSum]
  | cons g gs ih =>
      intro st hfam
      have hg := coarsenGroupStep_effect elem st g
        (fun sibs hs => hfam g (List.mem_cons_self g gs) sibs hs)
      obtain ⟨hg2, hg1, hgne⟩ := hg
      obtain ⟨ih2, ih1⟩ := ih (coarsenGroupStep elem st g)
        (fun g2 hmem sibs hs => hfam g2 (List.mem_cons_of_mem g hmem) sibs hs)
      have hflat : flattenGroups (g :: gs) =
          flattenGroups [g] ++ flattenGroups gs := by
        cases g <;> simp [flattenGroups]
      rw [List.foldl_cons]
      constructor
      · rw [ih2, hg2, hflat, premainSum_append]
        ring
      · rw [ih1, hflat]
        by_cases hgs : flattenGroups gs = []
        · rw [if_pos hgs, hgs, List.append_nil, hg1,
            if_neg (by simpa using hgne)]
        · rw [if_neg hgs, if_neg (by simp [hgne]),
            lastLpend_append _ _ hgs]

theorem coarsenResult_invariants (elem : ℚ) : ∀ (groups : List CoGroup),
    (∀ g ∈ groups, ∀ sibs, g = CoGroup.family sibs → sibs ≠ []) →
    premainSum (coarsenResult elem groups) =
      premainSum (flattenGroups groups) ∧
    (coarsenResult elem groups = [] ↔ flattenGroups groups = []) ∧
    (flattenGroups groups ≠ [] →
      lastLpend (coarsenResult elem groups) =
        lastLpend (flattenGroups groups)) := by
  intro groups
  induction groups with
  | nil => intro _; simp [coarsenResult, flattenGroups]
  | cons g gs ih =>
      intro hfam
      obtain ⟨ihsum, ihemp, ihlast⟩ := ih
        (fun g2 hmem sibs hs => hfam g2 (List.mem_cons_of_mem g hmem) sibs hs)
      have hhead : ∃ hd : List QuData,
          coarsenResult elem (g :: gs) = hd ++ coarsenResult elem gs ∧
          flattenGroups (g :: gs) = flattenGroups [g] ++ flattenGroups gs ∧
          hd ≠ [] ∧ premainSum hd = premainSum (flattenGroups [g]) ∧
          lastLpend hd = lastLpend (flattenGroups [g]) ∧
          flattenGroups [g] ≠ [] := by
        cases g with
        | single q =>
            exact ⟨[q], by simp [coarsenResult], by simp [flattenGroups],
              by simp, by simp [flattenGroups], by simp [flattenGroups],
              by simp [flattenGroups]⟩
        | family sibs =>
            have hne : sibs ≠ [] := hfam _ (List.mem_cons_self _ _) sibs rfl
            have hflat : flattenGroups [CoGroup.family sibs] = sibs := by
              simp [flattenGroups]
            by_cases hdec : use_coarsen_decision elem sibs = true
            · refine ⟨[coarsenParent sibs], ?_, by simp [flattenGroups],
                by simp, ?_, ?_, by rw [hflat]; exact hne⟩
              · simp [coarsenResult, hdec]
              · rw [hflat]
                simp [premainSum, coarsenParent]
              · rw [hflat]
                simp [lastLpend, coarsenParent]
            · refine ⟨sibs, ?_, by simp [flattenGroups], hne,
                by rw [hflat], by rw [hflat], by rw [hflat]; exact hne⟩
              simp [coarsenResult, hdec]
      obtain ⟨hd, hres, hflat, hdne, hdsum, hdlast, hgne⟩ := hhead
      rw [hres, hflat]
      refine ⟨?_, ?_, ?_⟩
      · rw [premainSum_append, premainSum_append, hdsum, ihsum]
      · constructor
        · intro h
          exact absurd (List.append_eq_nil.mp h).1 hdne
        · intro h
          exact absurd (List.append_eq_nil.mp h).1 hgne
      · intro _
        by_cases hgs : flattenGroups gs = []
        · have hres0 : coarsenResult elem gs = [] := ihemp.mpr hgs
          rw [hgs, hres0, List.append_nil, List.append_nil, hdlast]
        · have hres0 : coarsenResult elem gs ≠ [] :=
            fun h => hgs (ihemp.mp h)
          rw [lastLpend_append _ _ hres0, lastLpend_append _ _ hgs,
            ihlast hgs]

theorem refinePass_foldl (elem : ℚ) : ∀ (leaves : List QuData)
    (st : RefineCursors),
    (leaves.foldl (use_refine_step elem) st).irindex =
      st.irindex + premainSum leaves ∧
    (leaves.foldl (use_refine_step elem) st).prevlp =
      (if leaves = [] then st.prevlp else lastLpend leaves) := by
  intro leaves
  induction leaves with
  | nil => intro st; simp [premainSum]
  | cons q qs ih =>
      intro st
      obtain ⟨ih2, ih1⟩ := ih (use_refine_step elem st q)
      have hstep : (use_refine_step elem st q).irindex =
          st.irindex + q.premain ∧
          (use_refine_step elem st q).prevlp = q.lpend := by
        unfold use_refine_step
        split <;> exact ⟨rfl, rfl⟩
      rw [List.foldl_cons]
      constructor
      · rw [ih2, hstep.1]
        simp only [premainSum, List.map_cons, List.sum_cons]
        ring
      · rw [ih1]
        by_cases hqs : qs = []
        · subst hqs
          simp [hstep.2, lastLpend]
        · rw [if_neg hqs, if_neg (by simp), lastLpend_cons q qs hqs]

/-- Claim C6.  For every reachable pre-pass forest (last leaf lpend equal to
the particle-store size, premain counters summing to the retained-index list
size) and every mixture of merges, splits and unchanged leaves: after the
coarsen traversal the running offset cursor prevlp equals the store size and
the running retained-index cursor irindex equals the retained-index list
size; the post-coarsen forest re-establishes both preconditions; and the
refine traversal over it again ends with both cursors at those sizes. -/
theorem use_cursor_invariants (elem : ℚ) (groups : List CoGroup)
    (padataSize iremainSize : ℤ)
    (hfam : ∀ g ∈ groups, ∀ sibs, g = CoGroup.family sibs → sibs ≠ [])
    (hne : flattenGroups groups ≠ [])
    (hlast : lastLpend (flattenGroups groups) = padataSize)
    (hsum : premainSum (flattenGroups groups) = iremainSize) :
    ((coarsenPass elem groups).1 = padataSize ∧
     (coarsenPass elem groups).2 = iremainSize) ∧
    (lastLpend (coarsenResult elem groups) = padataSize ∧
     premainSum (coarsenResult elem groups) = iremainSize) ∧
    ((refinePass elem (coarsenResult elem groups)).prevlp = padataSize ∧
     (refinePass elem (coarsenResult elem groups)).irindex = iremainSize) := by
  obtain ⟨hp2, hp1⟩ := coarsenPass_foldl elem groups (0, 0) hfam
  obtain ⟨hrsum, hremp, hrlast⟩ := coarsenResult_invariants elem groups hfam
  obtain ⟨hf2, hf1⟩ := refinePass_foldl elem (coarsenResult elem groups)
    ⟨0, 0, 0, 0⟩
  have hresne : coarsenResult elem groups ≠ [] :=
    fun h => hne (hremp.mp h)
  refine ⟨⟨?_, ?_⟩, ⟨?_, ?_⟩, ?_, ?_⟩
  · unfold coarsenPass
    rw [hp1, if_neg hne, hlast]
  · unfold coarsenPass
    rw [hp2, hsum]
    ring
  · rw [hrlast hne, hlast]
  · rw [hrsum, hsum]
  · unfold refinePass
    rw [hf1, if_neg hresne, hrlast hne, hlast]
  · unfold refinePass
    rw [hf2, hrsum, hsum]
    ring

/-- Witness for C6: one kept single leaf, a merged family of two, and a
rejected family of two, with elem_particles = 4. -/
theorem use_cursor_invariants_witness :
    ((∀ g ∈ [CoGroup.single ⟨2, 1, 0⟩,
        CoGroup.family [⟨3, 1, 0⟩, ⟨4, 0, 0⟩],
        CoGroup.family [⟨7, 3, 1⟩, ⟨9, 2, 2⟩]],
        ∀ sibs, g = CoGroup.family sibs → sibs ≠ []) ∧
      flattenGroups [CoGroup.single ⟨2, 1, 0⟩,
        CoGroup.family [⟨3, 1, 0⟩, ⟨4, 0, 0⟩],
        CoGroup.family [⟨7, 3, 1⟩, ⟨9, 2, 2⟩]] ≠ [] ∧
      lastLpend (flattenGroups [CoGroup.single ⟨2, 1, 0⟩,
        CoGroup.family [⟨3, 1, 0⟩, ⟨4, 0, 0⟩],
        CoGroup.family [⟨7, 3, 1⟩, ⟨9, 2, 2⟩]]) = 9 ∧
      premainSum (flattenGroups [CoGroup.single ⟨2, 1, 0⟩,
        CoGroup.family [⟨3, 1, 0⟩, ⟨4, 0, 0⟩],
        CoGroup.family [⟨7, 3, 1⟩, ⟨9, 2, 2⟩]]) = 7) ∧
    (((coarsenPass 4 [CoGroup.single ⟨2, 1, 0⟩,
        CoGroup.family [⟨3, 1, 0⟩, ⟨4, 0, 0⟩],
        CoGroup.family [⟨7, 3, 1⟩, ⟨9, 2, 2⟩]]).1 = 9 ∧
      (coarsenPass 4 [CoGroup.single ⟨2, 1, 0⟩,
        CoGroup.family [⟨3, 1, 0⟩, ⟨4, 0, 0⟩],
        CoGroup.family [⟨7, 3, 1⟩, ⟨9, 2, 2⟩]]).2 = 7) ∧
    (lastLpend (coarsenResult 4 [CoGroup.single ⟨2, 1, 0⟩,
        CoGroup.family [⟨3, 1, 0⟩, ⟨4, 0, 0⟩],
        CoGroup.family [⟨7, 3, 1⟩, ⟨9, 2, 2⟩]]) = 9 ∧
      premainSum (coarsenResult 4 [CoGroup.single ⟨2, 1, 0⟩,
        CoGroup.family [⟨3, 1, 0⟩, ⟨4, 0, 0⟩],
        CoGroup.family [⟨7, 3, 1⟩, ⟨9, 2, 2⟩]]) = 7) ∧
    ((refinePass 4 (coarsenResult 4 [CoGroup.single ⟨2, 1, 0⟩,
        CoGroup.family [⟨3, 1, 0⟩, ⟨4, 0, 0⟩],
        CoGroup.family [⟨7, 3, 1⟩, ⟨9, 2, 2⟩]])).prevlp = 9 ∧
      (refinePass 4 (coarsenResult 4 [CoGroup.single ⟨2, 1, 0⟩,
        CoGroup.family [⟨3, 1, 0⟩, ⟨4, 0, 0⟩],
        CoGroup.family [⟨7, 3, 1⟩, ⟨9, 2, 2⟩]])).irindex = 7)) :=
  ⟨⟨by
      rintro g hg sibs rfl
      simp only [List.mem_cons, List.not_mem_nil, or_false] at hg
      rcases hg with h | h | h <;> simp_all,
    by decide, by decide, by decide⟩,
    use_cursor_invariants 4 [CoGroup.single ⟨2, 1, 0⟩,
      CoGroup.family [⟨3, 1, 0⟩, ⟨4, 0, 0⟩],
      CoGroup.family [⟨7, 3, 1⟩, ⟨9, 2, 2⟩]] 9 7
      (by
        rintro g hg sibs rfl
        simp only [List.mem_cons, List.not_mem_nil, or_false] at hg
        rcases hg with h | h | h <;> simp_all)
      (by decide) (by decide) (by decide)⟩

/-! ## Deterministic seeding (claim C7)

Embedding of `srandquad` (lines 338-351) and of the seeding loop of
`create` (lines 353-414).  The C library generator behind srand/rand is not
part of this repository. -/

/-- Shallow embedding of the seed computation of srandquad: unsigned 32-bit
arithmetic, the (unsigned) cast of a nonnegative double truncating; shifts
are multiplications, and the chain of mod-2^32 operations collapses into one
outer reduction. -/
def srandquadSeed (l : Vec3) : ℕ :=
  ((⌊l 2 * 1024⌋).toNat * 2 ^ 20 + (⌊l 1 * 1024⌋).toNat * 2 ^ 10 +
    (⌊l 0 * 1024⌋).toNat) % 2 ^ 32

/-- Modelled from the spec: the C library pseudo-random generator used via
srand/rand (not part of this repository) is a deterministic recurrence on a
hidden integer state seeded by srand; any concrete recurrence represents it,
and we use a linear congruential step with RAND_MAX = 2^31 - 1. -/
def randNext (s : ℕ) : ℕ := (1103515245 * s + 12345) % 2 ^ 31

/-- RAND_MAX of the modelled generator. -/
def randMax : ℕ := 2 ^ 31 - 1

/-- One call of rand () / (double) RAND_MAX: the drawn rational and the new
generator state. -/
def drawCoord (s : ℕ) : ℚ × ℕ :=
  (((randNext s : ℕ) : ℚ) / (randMax : ℚ), randNext s)

/-- Geometry and density integral of one leaf as used by create. -/
structure LeafGeom where
  lxyz : Vec3
  dxyz : Vec3
  dens : ℚ

/-- One particle of the seeding loop (create lines 389-403): each of the
P4EST_DIM position components is lxyz[j] + r * dxyz[j] with a fresh draw r;
velocities are zero, and in 2-D the third position component is zero. -/
def genParticle (dim3 : Bool) (leaf : LeafGeom) (s : ℕ) : Vec6 × ℕ :=
  let d0 := drawCoord s
  let d1 := drawCoord d0.2
  if dim3 then
    let d2 := drawCoord d1.2
    (![leaf.lxyz 0 + d0.1 * leaf.dxyz 0, leaf.lxyz 1 + d1.1 * leaf.dxyz 1,
       leaf.lxyz 2 + d2.1 * leaf.dxyz 2, 0, 0, 0], d2.2)
  else
    (![leaf.lxyz 0 + d0.1 * leaf.dxyz 0, leaf.lxyz 1 + d1.1 * leaf.dxyz 1,
       0, 0, 0, 0], d1.2)

/-- The required number of particles of one leaf, generated in order. -/
def genParticles (dim3 : Bool) (leaf : LeafGeom) :
    ℕ → ℕ → List Vec6 × ℕ
  | 0, s => ([], s)
  | n + 1, s =>
      let p := genParticle dim3 leaf s
      let rest := genParticles dim3 leaf n p.2
      (p.1 :: rest.1, rest.2)

/-- The particles of one leaf as a pure function of the leaf, the global
density integral and the target particle count: the per-leaf count is
round (dens / global_density * num_particles) and the generator state is
reset to the leaf seed before drawing (create lines 381-388). -/
def genLeaf (dim3 : Bool) (gd num : ℚ) (leaf : LeafGeom) : List Vec6 :=
  (genParticles dim3 leaf (cround (leaf.dens / gd * num)).toNat
    (srandquadSeed leaf.lxyz)).1

/-- The seeding loop of create over the local leaves, threading the hidden
generator state from leaf to leaf but reseeding at each leaf. -/
def createThread (dim3 : Bool) (gd num : ℚ) :
    List LeafGeom → ℕ → List (List Vec6) × ℕ
  | [], s => ([], s)
  | leaf :: rest, _s =>
      let g := genParticles dim3 leaf (cround (leaf.dens / gd * num)).toNat
        (srandquadSeed leaf.lxyz)
      let r := createThread dim3 gd num rest g.2
      (g.1 :: r.1, r.2)

theorem createThread_map (dim3 : Bool) (gd num : ℚ)
    (leaves : List LeafGeom) : ∀ s : ℕ,
    (createThread dim3 gd num leaves s).1 =
      leaves.map (genLeaf dim3 gd num) := by
  induction leaves with
  | nil => intro s; rfl
  | cons leaf rest ih =>
      intro s
      simp only [createThread, List.map_cons]
      rw [ih]
      rfl

/-- Claim C7.  The seed is the pure function
floor(z*2^10)*2^20 + floor(y*2^10)*2^10 + floor(x*2^10) of the leaf's lower
corner (the 32-bit reduction never truncates for coordinates in [0,1)); the
seeding loop's per-leaf output is the pure function genLeaf of the leaf
geometry, the global density integral and the target count, independent of
the incoming generator state; hence two runs over leaf lists that assign
the same leaf to any positions — any process decomposition — produce
bit-identical particle counts and positions for that leaf. -/
theorem create_deterministic (dim3 : Bool) (gd num : ℚ) (l : Vec3)
    (hl : ∀ i : Fin 3, 0 ≤ l i ∧ l i < 1) :
    (srandquadSeed l = (⌊l 2 * 2 ^ 10⌋ * 2 ^ 20 + ⌊l 1 * 2 ^ 10⌋ * 2 ^ 10 +
      ⌊l 0 * 2 ^ 10⌋).toNat) ∧
    (∀ (leaves : List LeafGeom) (s : ℕ),
      (createThread dim3 gd num leaves s).1 =
        leaves.map (genLeaf dim3 gd num)) ∧
    (∀ (leaves1 leaves2 : List LeafGeom) (s1 s2 i j : ℕ)
      (leaf : LeafGeom), leaves1[i]? = some leaf → leaves2[j]? = some leaf →
      (createThread dim3 gd num leaves1 s1).1[i]? =
        (createThread dim3 gd num leaves2 s2).1[j]?) := by
  refine ⟨?_, createThread_map dim3 gd num, ?_⟩
  · have hb : ∀ i : Fin 3, 0 ≤ ⌊l i * 1024⌋ ∧ ⌊l i * 1024⌋ < 1024 := by
      intro i
      obtain ⟨h0, h1⟩ := hl i
      constructor
      · exact Int.floor_nonneg.mpr (by positivity)
      · exact Int.floor_lt.mpr (by push_cast; nlinarith)
    have h10 : (2 : ℚ) ^ 10 = 1024 := by norm_num
    rw [srandquadSeed, h10]
    obtain ⟨h20, h21⟩ := hb 2
    obtain ⟨h10a, h11⟩ := hb 1
    obtain ⟨h00, h01⟩ := hb 0
    omega
  · intro leaves1 leaves2 s1 s2 i j leaf h1 h2
    rw [createThread_map, createThread_map, List.getElem?_map,
      List.getElem?_map, h1, h2]

/-- Witness for C7: lower corner at the origin. -/
theorem create_deterministic_witness :
    (∀ i : Fin 3, 0 ≤ (fun _ => (0 : ℚ)) i ∧ (fun _ => (0 : ℚ)) i < 1) ∧
    ((srandquadSeed (fun _ => 0) =
      (⌊(fun _ => (0 : ℚ)) 2 * 2 ^ 10⌋ * 2 ^ 20 +
       ⌊(fun _ => (0 : ℚ)) 1 * 2 ^ 10⌋ * 2 ^ 10 +
       ⌊(fun _ => (0 : ℚ)) 0 * 2 ^ 10⌋).toNat) ∧
    (∀ (leaves : List LeafGeom) (s : ℕ),
      (createThread true 1 1000 leaves s).1 =
        leaves.map (genLeaf true 1 1000)) ∧
    (∀ (leaves1 leaves2 : List LeafGeom) (s1 s2 i j : ℕ)
      (leaf : LeafGeom), leaves1[i]? = some leaf → leaves2[j]? = some leaf →
      (createThread true 1 1000 leaves1 s1).1[i]? =
        (createThread true 1 1000 leaves2 s2).1[j]?)) :=
  ⟨fun _ => ⟨le_refl 0, zero_lt_one⟩,
    create_deterministic true 1 1000 (fun _ => 0)
      (fun _ => ⟨le_refl 0, zero_lt_one⟩)⟩

/-! ## Local search over received particles (claim C10)

Embedding of `slocal_point` (lines 870-909) as invoked from `use`
(lines 1162-1165).  The search presents a sequence of local-leaf visits
(leaf label with its bounds) to each received point; a match overwrites the
point's first buffer coordinate with -1 and bumps the leaf's preceive
counter (recorded here as the claims list) and the global lfound counter. -/

/-- Shallow embedding of slocal_point for one leaf visit: the state carries
the (mutable) buffer coordinates of the point and the preceive bumps made
for this point so far. -/
def slocal_point (dim3 : Bool) (st : Vec3 × List ℕ)
    (e : ℕ × (Vec3 × Vec3)) : Vec3 × List ℕ :=
  if containsPt dim3 e.2.1 e.2.2 st.1 then
    (Function.update st.1 0 (-1), st.2 ++ [e.1])
  else st

/-- The search of one received point over the local leaves in visit order. -/
def slocalRun (dim3 : Bool) (entries : List (ℕ × (Vec3 × Vec3)))
    (x : Vec3) : Vec3 × List ℕ :=
  entries.foldl (slocal_point dim3) (x, [])

/-- Total number of found particles (g->lfound) over a received buffer. -/
def slocalFound (dim3 : Bool) (entries : List (ℕ × (Vec3 × Vec3)))
    (pts : List Vec3) : ℕ :=
  (pts.map (fun x => (slocalRun dim3 entries x).2.length)).sum

theorem slocal_point_spoiled (dim3 : Bool)
    (entries : List (ℕ × (Vec3 × Vec3)))
    (hlow : ∀ e ∈ entries, 0 ≤ e.2.1 0) : ∀ st : Vec3 × List ℕ,
    st.1 0 < 0 → entries.foldl (slocal_point dim3) st = st := by
  induction entries with
  | nil => intro st _; rfl
  | cons e rest ih =>
      intro st hx
      have hle : 0 ≤ e.2.1 0 := hlow e (List.mem_cons_self e rest)
      have hnc : ¬ containsPt dim3 e.2.1 e.2.2 st.1 := by
        intro hc
        have := hc.1.1
        linarith
      have hstep : slocal_point dim3 st e = st := by
        unfold slocal_point
        rw [if_neg hnc]
      rw [List.foldl_cons, hstep]
      exact ih (fun e2 he2 => hlow e2 (List.mem_cons_of_mem e he2)) st hx

theorem slocalRun_char (dim3 : Bool) :
    ∀ (entries : List (ℕ × (Vec3 × Vec3))) (x : Vec3),
    (∀ e ∈ entries, 0 ≤ e.2.1 0) →
    (slocalRun dim3 entries x).2 =
      (match (entries.filter
          (fun e => decide (containsPt dim3 e.2.1 e.2.2 x))).head? with
       | some e => [e.1]
       | none => []) := by
  intro entries
  induction entries with
  | nil => intro x _; rfl
  | cons e rest ih =>
      intro x hlow
      have hrest : ∀ e2 ∈ rest, 0 ≤ e2.2.1 0 :=
        fun e2 he2 => hlow e2 (List.mem_cons_of_mem e he2)
      by_cases hc : containsPt dim3 e.2.1 e.2.2 x
      · have hstep : slocal_point dim3 (x, []) e =
            (Function.update x 0 (-1), [e.1]) := by
          unfold slocal_point
          rw [if_pos hc]
          rfl
        have hrun : slocalRun dim3 (e :: rest) x =
            (Function.update x 0 (-1), [e.1]) := by
          unfold slocalRun
          rw [List.foldl_cons, hstep]
          exact slocal_point_spoiled dim3 rest hrest _
            (by simp [Function.update])
        rw [hrun]
        simp [List.filter_cons, hc]
      · have hstep : slocal_point dim3 (x, []) e = (x, []) := by
          unfold slocal_point
          rw [if_neg hc]
        have hrun : slocalRun dim3 (e :: rest) x =
            slocalRun dim3 rest x := by
          unfold slocalRun
          rw [List.foldl_cons, hstep]
        rw [hrun, ih x hrest]
        simp [List.filter_cons, hc]

/-- Claim C10.  With every local leaf's lower x-bound nonnegative (the unit
or brick domain): a received point is claimed by the first local leaf whose
bounds contain it and by no other leaf — its preceive-bump list is exactly
that one leaf, or empty when no leaf contains it — so each received
particle increments preceive of at most one leaf; and when every received
point is contained in some local leaf, the found counter equals the length
of the arrival buffer. -/
theorem slocal_point_counts (dim3 : Bool)
    (entries : List (ℕ × (Vec3 × Vec3))) (pts : List Vec3)
    (hlow : ∀ e ∈ entries, 0 ≤ e.2.1 0) :
    (∀ x : Vec3, (slocalRun dim3 entries x).2 =
      (match (entries.filter
          (fun e => decide (containsPt dim3 e.2.1 e.2.2 x))).head? with
       | some e => [e.1]
       | none => [])) ∧
    (∀ x : Vec3, (slocalRun dim3 entries x).2.length ≤ 1) ∧
    ((∀ x ∈ pts, ∃ e ∈ entries, containsPt dim3 e.2.1 e.2.2 x) →
      slocalFound dim3 entries pts = pts.length) := by
  have hchar := fun x => slocalRun_char dim3 entries x hlow
  refine ⟨hchar, fun x => ?_, fun hall => ?_⟩
  · rw [hchar x]
    split <;> simp
  · unfold slocalFound
    have hone : ∀ x ∈ pts, (slocalRun dim3 entries x).2.length = 1 := by
      intro x hx
      obtain ⟨e, he, hc⟩ := hall x hx
      rw [hchar x]
      have hmem : e ∈ entries.filter
          (fun e2 => decide (containsPt dim3 e2.2.1 e2.2.2 x)) :=
        List.mem_filter.mpr ⟨he, decide_eq_true hc⟩
      split
      · simp
      · next heq =>
          rw [List.head?_eq_none_iff] at heq
          rw [heq] at hmem
          exact absurd hmem (List.not_mem_nil e)
    induction pts with
    | nil => rfl
    | cons p ps ih =>
        simp only [List.map_cons, List.sum_cons, List.length_cons]
        rw [hone p (List.mem_cons_self p ps),
          ih (fun x hx => hall x (List.mem_cons_of_mem p hx))
            (fun x hx => hone x (List.mem_cons_of_mem p hx))]
        omega

/-- First demo leaf for the C10 witness: left half of the unit square. -/
def demoLeafA : ℕ × Vec3 × Vec3 :=
  (0, fun _ => 0, fun i => if i.val = 0 then 1/2 else 1)

/-- Second demo leaf for the C10 witness: the whole unit square (the two
leaves overlap on the left half, exercising the first-match policy). -/
def demoLeafB : ℕ × Vec3 × Vec3 := (1, fun _ => 0, fun _ => 1)

/-- Received points for the C10 witness. -/
def demoPts : List Vec3 := [fun _ => 0, fun _ => 1]

/-- Witness for C10: two leaves covering the unit square halves, two points
each contained in some leaf. -/
theorem slocal_point_counts_witness :
    (∀ e ∈ [demoLeafA, demoLeafB], 0 ≤ e.2.1 0) ∧
    ((∀ x : Vec3, (slocalRun false [demoLeafA, demoLeafB] x).2 =
      (match ([demoLeafA, demoLeafB].filter
          (fun e => decide (containsPt false e.2.1 e.2.2 x))).head? with
       | some e => [e.1]
       | none => [])) ∧
    (∀ x : Vec3,
      (slocalRun false [demoLeafA, demoLeafB] x).2.length ≤ 1) ∧
    ((∀ x ∈ demoPts, ∃ e ∈ [demoLeafA, demoLeafB],
        containsPt false e.2.1 e.2.2 x) →
      slocalFound false [demoLeafA, demoLeafB] demoPts =
        demoPts.length)) :=
  ⟨by
      intro e he
      simp only [List.mem_cons, List.not_mem_nil, or_false] at he
      rcases he with rfl | rfl
      · exact le_refl 0
      · exact le_refl 0,
    slocal_point_counts false [demoLeafA, demoLeafB] demoPts
      (by
        intro e he
        simp only [List.mem_cons, List.not_mem_nil, or_false] at he
        rcases he with rfl | rfl
        · exact le_refl 0
        · exact le_refl 0)⟩

/-! ## Bootstrap loop termination (claim C9)

Embedding of `initrp` (lines 253-336) and `initrp_refine` (lines 239-251).
The mesh is modelled as the global list of leaf levels (the reductions make
every process see the same sum and max, and p4est_partition only
redistributes leaves among processes without changing the global
collection).  Modelled from the spec: the per-cycle re-integration of the
density over each leaf is an oracle dens (cycle, leaf position) — the loop
body only uses the resulting values, their global sum (global_density) and
their global max; and p4est_refine_ext (not under src/) performs one
non-recursive sweep replacing each leaf that satisfies the predicate and
lies below the allowed level maxlevel - bricklev by P4EST_CHILDREN children
one level deeper. -/

/-- P4EST_CHILDREN. -/
def nchildren (dim3 : Bool) : ℕ := if dim3 then 8 else 4

/-- The per-leaf density integrals of one cycle (qud->u.d values). -/
def cycleDs (dens : ℕ → ℕ → ℚ) (c n : ℕ) : List ℚ :=
  (List.range n).map (dens c)

/-- global_density: the reduced sum of the per-leaf integrals (line 294). -/
def cycleGd (dens : ℕ → ℕ → ℚ) (c n : ℕ) : ℚ := (cycleDs dens c n).sum

/-- glolp[0]: the reduced maximum of the per-leaf integrals, accumulated
from 0 by SC_MAX (lines 274, 288, 303). -/
def cycleMaxd (dens : ℕ → ℕ → ℚ) (c n : ℕ) : ℚ :=
  (cycleDs dens c n).foldl max 0

/-- ilem_particles of the break test (lines 306-307). -/
def cycleIlem (num : ℚ) (dens : ℕ → ℕ → ℚ) (c n : ℕ) : ℤ :=
  cround (cycleMaxd dens c n * num / cycleGd dens c n)

/-- The refinement test: initrp_refine (lines 239-251) conjoined with the
allowed-level cap that p4est_refine_ext enforces. -/
def initrpPred (num elem : ℚ) (dens : ℕ → ℕ → ℚ) (gd : ℚ) (c cap i lv : ℕ) :
    Bool :=
  decide (((cround (dens c i * num / gd) : ℤ) : ℚ) > elem) ∧
    decide (lv < cap)

/-- One non-recursive refinement sweep over the leaves starting at leaf
position i. -/
def refineLevelsAux (pred : ℕ → ℕ → Bool) (nch : ℕ) :
    ℕ → List ℕ → List ℕ
  | _, [] => []
  | i, lv :: rest =>
      (if pred i lv then List.replicate nch (lv + 1) else [lv]) ++
        refineLevelsAux pred nch (i + 1) rest

/-- Outcome of the bootstrap loop. -/
inductive InitrpResult where
  | finished (cycles : ℕ) (levels : List ℕ)
  | aborted (cycle : ℕ)
  | outOfFuel
deriving DecidableEq, Repr

/-- The loop of initrp with explicit fuel: break when the cycle budget is
exhausted or the maximum expected count is at or below the target
(line 312); otherwise refine, hit the fatal branch if the quadrant count
did not change (lines 317-326), and continue. -/
def initrpGo (dim3 : Bool) (num elem : ℚ) (dens : ℕ → ℕ → ℚ)
    (maxCycles cap : ℕ) : ℕ → ℕ → List ℕ → InitrpResult
  | 0, _, _ => InitrpResult.outOfFuel
  | fuel + 1, cycle, levels =>
      if cycle ≥ maxCycles ∨
          ((cycleIlem num dens cycle levels.length : ℤ) : ℚ) ≤ elem then
        InitrpResult.finished cycle levels
      else
        let newLevels := refineLevelsAux
          (initrpPred num elem dens (cycleGd dens cycle levels.length)
            cycle cap) (nchildren dim3) 0 levels
        if newLevels.length = levels.length then InitrpResult.aborted cycle
        else initrpGo dim3 num elem dens maxCycles cap fuel (cycle + 1)
          newLevels

/-- The bootstrap entry point: cycle budget maxlevel - minlevel, allowed
level maxlevel - bricklev, fuel one more than the budget. -/
def initrp (dim3 : Bool) (num elem : ℚ) (dens : ℕ → ℕ → ℚ)
    (minlevel maxlevel bricklev : ℕ) (levels0 : List ℕ) : InitrpResult :=
  initrpGo dim3 num elem dens (maxlevel - minlevel) (maxlevel - bricklev)
    (maxlevel - minlevel + 1) 0 levels0

theorem foldl_max_mem (l : List ℚ) : ∀ a : ℚ,
    l.foldl max a ∈ a :: l ∧ ∀ x ∈ a :: l, x ≤ l.foldl max a := by
  induction l with
  | nil => intro a; simp
  | cons b bs ih =>
      intro a
      obtain ⟨hmem, hle⟩ := ih (max a b)
      have hfold : (b :: bs).foldl max a = bs.foldl max (max a b) := rfl
      constructor
      · rw [hfold]
        rcases List.mem_cons.mp hmem with h1 | h1
        · rcases max_choice a b with hm | hm
          · rw [h1, hm]; exact List.mem_cons_self _ _
          · rw [h1, hm]
            exact List.mem_cons_of_mem _ (List.mem_cons_self _ _)
        · exact List.mem_cons_of_mem _ (List.mem_cons_of_mem _ h1)
      · intro x hx
        rw [hfold]
        have hup : max a b ≤ bs.foldl max (max a b) :=
          hle _ (List.mem_cons_self _ _)
        rcases List.mem_cons.mp hx with h1 | h1
        · rw [h1]; exact le_trans (le_max_left a b) hup
        · rcases List.mem_cons.mp h1 with h2 | h2
          · rw [h2]; exact le_trans (le_max_right a b) hup
          · exact hle x (List.mem_cons_of_mem _ h2)

theorem cycleMaxd_mem (dens : ℕ → ℕ → ℚ) (c n : ℕ) (hn : 0 < n)
    (hdpos : ∀ c2 i, 0 < dens c2 i) :
    cycleMaxd dens c n ∈ cycleDs dens c n ∧
    ∀ x ∈ cycleDs dens c n, x ≤ cycleMaxd dens c n := by
  obtain ⟨hmem, hle⟩ := foldl_max_mem (cycleDs dens c n) 0
  have hlen : (cycleDs dens c n).length = n := by simp [cycleDs]
  have hne : cycleDs dens c n ≠ [] := by
    intro h
    rw [h] at hlen
    simp at hlen
    omega
  unfold cycleMaxd
  refine ⟨?_, fun x hx => hle x (List.mem_cons_of_mem _ hx)⟩
  rcases List.mem_cons.mp hmem with h0 | h1
  · exfalso
    match hl : cycleDs dens c n, hne with
    | d :: ds, _ =>
        have hd : d ∈ cycleDs dens c n := by
          rw [hl]; exact List.mem_cons_self _ _
        have hpos : 0 < d := by
          unfold cycleDs at hd
          obtain ⟨i, _, hi⟩ := List.mem_map.mp hd
          rw [← hi]; exact hdpos c i
        have := hle d (List.mem_cons_of_mem _ hd)
        rw [h0] at this
        linarith
  · exact h1

theorem refineLevelsAux_length_ge (pred : ℕ → ℕ → Bool) (nch : ℕ)
    (hnch : 1 ≤ nch) : ∀ (l : List ℕ) (i : ℕ),
    l.length ≤ (refineLevelsAux pred nch i l).length := by
  intro l
  induction l with
  | nil => intro i; simp [refineLevelsAux]
  | cons a rest ih =>
      intro i
      have := ih (i + 1)
      simp only [refineLevelsAux, List.length_append, List.length_cons]
      split <;> simp only [List.length_replicate, List.length_singleton] <;>
        omega

theorem refineLevelsAux_length_lt (pred : ℕ → ℕ → Bool) (nch : ℕ)
    (hnch : 2 ≤ nch) : ∀ (l : List ℕ) (i j : ℕ) (lv : ℕ),
    l[j]? = some lv → pred (i + j) lv = true →
    l.length < (refineLevelsAux pred nch i l).length := by
  intro l
  induction l with
  | nil => intro i j lv h; simp at h
  | cons a rest ih =>
      intro i j lv hj hp
      cases j with
      | zero =>
          have ha : a = lv := by simpa using hj
          subst ha
          have hpi : pred i a = true := by simpa using hp
          have hge := refineLevelsAux_length_ge pred nch (by omega) rest (i + 1)
          simp only [refineLevelsAux, hpi, if_pos, List.length_append,
            List.length_replicate, List.length_cons]
          omega
      | succ j2 =>
          have hj2 : rest[j2]? = some lv := by simpa using hj
          have hp2 : pred ((i + 1) + j2) lv = true := by
            have : (i + 1) + j2 = i + (j2 + 1) := by omega
            rw [this]; exact hp
          have := ih (i + 1) j2 lv hj2 hp2
          simp only [refineLevelsAux, List.length_append, List.length_cons]
          split <;> simp only [List.length_replicate, List.length_singleton] <;>
            omega

theorem refineLevelsAux_level_bound (pred : ℕ → ℕ → Bool) (nch : ℕ)
    (B : ℕ) : ∀ (l : List ℕ) (i : ℕ), (∀ lv ∈ l, lv ≤ B) →
    ∀ lv ∈ refineLevelsAux pred nch i l, lv ≤ B + 1 := by
  intro l
  induction l with
  | nil => intro i _ lv h; simp [refineLevelsAux] at h
  | cons a rest ih =>
      intro i hb lv hlv
      simp only [refineLevelsAux, List.mem_append] at hlv
      rcases hlv with h1 | h1
      · have ha : a ≤ B := hb a (List.mem_cons_self a rest)
        by_cases hp : pred i a = true
        · rw [if_pos hp] at h1
          have := List.eq_of_mem_replicate h1
          omega
        · rw [if_neg hp] at h1
          simp at h1
          omega
      · exact ih (i + 1) (fun x hx => hb x (List.mem_cons_of_mem a hx)) lv h1

theorem initrp_cycle_refines (dim3 : Bool) (num elem : ℚ)
    (dens : ℕ → ℕ → ℚ) (cap : ℕ) (hdpos : ∀ c i, 0 < dens c i)
    (c : ℕ) (levels : List ℕ) (hne : levels ≠ [])
    (hcap : ∀ lv ∈ levels, lv < cap)
    (hproceed : ¬ ((cycleIlem num dens c levels.length : ℤ) : ℚ) ≤ elem) :
    (∃ i, ∃ hi : i < levels.length,
      initrpPred num elem dens (cycleGd dens c levels.length) c cap i
        levels[i] = true) ∧
    levels.length < (refineLevelsAux
      (initrpPred num elem dens (cycleGd dens c levels.length) c cap)
      (nchildren dim3) 0 levels).length := by
  have hn : 0 < levels.length := List.length_pos.mpr hne
  obtain ⟨hmem, _⟩ := cycleMaxd_mem dens c levels.length hn hdpos
  unfold cycleDs at hmem
  obtain ⟨i, hir, hieq⟩ := List.mem_map.mp hmem
  have hi : i < levels.length := List.mem_range.mp hir
  have hpred : initrpPred num elem dens (cycleGd dens c levels.length) c cap
      i levels[i] = true := by
    unfold initrpPred
    refine decide_eq_true ⟨decide_eq_true ?_, decide_eq_true ?_⟩
    · rw [hieq]
      unfold cycleIlem at hproceed
      linarith [lt_of_not_le hproceed]
    · exact hcap levels[i] (levels.getElem_mem hi)
  have hnch : 2 ≤ nchildren dim3 := by
    unfold nchildren
    split <;> omega
  refine ⟨⟨i, hi, hpred⟩, ?_⟩
  exact refineLevelsAux_length_lt _ _ hnch levels 0 i levels[i]
    (List.getElem?_eq_getElem hi) (by simpa using hpred)

theorem initrpGo_finishes (dim3 : Bool) (num elem : ℚ)
    (dens : ℕ → ℕ → ℚ) (minlevel maxlevel bricklev : ℕ)
    (hlev : bricklev ≤ minlevel ∧ minlevel ≤ maxlevel)
    (hdpos : ∀ c i, 0 < dens c i) :
    ∀ (fuel cycle : ℕ) (levels : List ℕ), 1 ≤ fuel →
    cycle + fuel = (maxlevel - minlevel) + 1 → levels ≠ [] →
    (∀ lv ∈ levels, lv + bricklev ≤ minlevel + cycle) →
    ∃ c lvs, initrpGo dim3 num elem dens (maxlevel - minlevel)
        (maxlevel - bricklev) fuel cycle levels =
      InitrpResult.finished c lvs ∧ c ≤ maxlevel - minlevel := by
  intro fuel
  induction fuel with
  | zero => intro cycle levels h1 _ _ _; omega
  | succ f ih =>
      intro cycle levels _ hinv hne hbound
      rw [show initrpGo dim3 num elem dens (maxlevel - minlevel)
          (maxlevel - bricklev) (f + 1) cycle levels =
        (if cycle ≥ (maxlevel - minlevel) ∨
            ((cycleIlem num dens cycle levels.length : ℤ) : ℚ) ≤ elem then
          InitrpResult.finished cycle levels
        else
          if (refineLevelsAux (initrpPred num elem dens
                (cycleGd dens cycle levels.length) cycle
                (maxlevel - bricklev)) (nchildren dim3) 0 levels).length =
              levels.length then
            InitrpResult.aborted cycle
          else initrpGo dim3 num elem dens (maxlevel - minlevel)
            (maxlevel - bricklev) f (cycle + 1)
            (refineLevelsAux (initrpPred num elem dens
              (cycleGd dens cycle levels.length) cycle
              (maxlevel - bricklev)) (nchildren dim3) 0 levels)) from rfl]
      by_cases hstop : cycle ≥ (maxlevel - minlevel) ∨
          ((cycleIlem num dens cycle levels.length : ℤ) : ℚ) ≤ elem
      · rw [if_pos hstop]
        exact ⟨cycle, levels, rfl, by omega⟩
      · rw [if_neg hstop]
        rw [not_or] at hstop
        obtain ⟨hcyc, hilem⟩ := hstop
        have hcap : ∀ lv ∈ levels, lv < maxlevel - bricklev := by
          intro lv hlv
          have := hbound lv hlv
          omega
        obtain ⟨_, hlt⟩ := initrp_cycle_refines dim3 num elem dens
          (maxlevel - bricklev) hdpos cycle levels hne hcap hilem
        rw [if_neg (by omega)]
        have hnewne : refineLevelsAux (initrpPred num elem dens
            (cycleGd dens cycle levels.length) cycle (maxlevel - bricklev))
            (nchildren dim3) 0 levels ≠ [] := by
          intro h
          rw [h] at hlt
          simp at hlt
        have hnewbound : ∀ lv ∈ refineLevelsAux (initrpPred num elem dens
            (cycleGd dens cycle levels.length) cycle (maxlevel - bricklev))
            (nchildren dim3) 0 levels, lv + bricklev ≤ minlevel + (cycle + 1) := by
          intro lv hlv
          have hb : ∀ lv2 ∈ levels, lv2 ≤ minlevel + cycle - bricklev := by
            intro lv2 hlv2
            have := hbound lv2 hlv2
            omega
          have := refineLevelsAux_level_bound _ _ (minlevel + cycle - bricklev)
            levels 0 hb lv hlv
          omega
        exact ih (cycle + 1) _ (by omega) (by omega) hnewne hnewbound

/-- Claim C9.  The bootstrap loop terminates after at most
(maxlevel - minlevel) + 1 cycles: it returns finished with a cycle counter
at most maxlevel - minlevel (the break fires as soon as the expected count
is at or below the target or the budget is reached), and the fatal branch
for an unchanged quadrant count is never taken; moreover in every cycle
that proceeds to refine, some leaf satisfies the refinement predicate
(rounded expected count above target, level below the cap), so the leaf
count strictly increases. -/
theorem initrp_terminates (dim3 : Bool) (num elem : ℚ)
    (dens : ℕ → ℕ → ℚ) (minlevel maxlevel bricklev : ℕ)
    (levels0 : List ℕ)
    (hlev : bricklev ≤ minlevel ∧ minlevel ≤ maxlevel)
    (hne : levels0 ≠ [])
    (hlv0 : ∀ lv ∈ levels0, lv + bricklev ≤ minlevel)
    (hdpos : ∀ c i, 0 < dens c i) :
    (∃ c lvs, initrp dim3 num elem dens minlevel maxlevel bricklev levels0 =
        InitrpResult.finished c lvs ∧ c ≤ maxlevel - minlevel) ∧
    (∀ (c : ℕ) (levels : List ℕ), levels ≠ [] →
      (∀ lv ∈ levels, lv < maxlevel - bricklev) →
      ¬ ((cycleIlem num dens c levels.length : ℤ) : ℚ) ≤ elem →
      (∃ i, ∃ hi : i < levels.length,
        initrpPred num elem dens (cycleGd dens c levels.length) c
          (maxlevel - bricklev) i levels[i] = true) ∧
      levels.length < (refineLevelsAux
        (initrpPred num elem dens (cycleGd dens c levels.length) c
          (maxlevel - bricklev)) (nchildren dim3) 0 levels).length) := by
  constructor
  · exact initrpGo_finishes dim3 num elem dens minlevel maxlevel bricklev
      hlev hdpos ((maxlevel - minlevel) + 1) 0 levels0 (by omega) (by omega)
      hne (by intro lv hlv; have := hlv0 lv hlv; omega)
  · intro c levels hne2 hcap hilem
    exact initrp_cycle_refines dim3 num elem dens (maxlevel - bricklev)
      hdpos c levels hne2 hcap hilem

/-- Witness for C9: the 2-D build, uniform density 1, 40 target particles,
3 particles per element, minlevel 1, maxlevel 2, no brick, two level-1
leaves. -/
theorem initrp_terminates_witness :
    ((0 ≤ 1 ∧ 1 ≤ 2) ∧ (([1, 1] : List ℕ) ≠ []) ∧
      (∀ lv ∈ ([1, 1] : List ℕ), lv + 0 ≤ 1) ∧
      (∀ c i : ℕ, (0 : ℚ) < (fun _ _ => 1 : ℕ → ℕ → ℚ) c i)) ∧
    ((∃ c lvs, initrp false 40 3 (fun _ _ => 1) 1 2 0 [1, 1] =
        InitrpResult.finished c lvs ∧ c ≤ 2 - 1) ∧
    (∀ (c : ℕ) (levels : List ℕ), levels ≠ [] →
      (∀ lv ∈ levels, lv < 2 - 0) →
      ¬ ((cycleIlem 40 (fun _ _ => 1) c levels.length : ℤ) : ℚ) ≤ 3 →
      (∃ i, ∃ hi : i < levels.length,
        initrpPred 40 3 (fun _ _ => 1) (cycleGd (fun _ _ => 1) c
          levels.length) c (2 - 0) i levels[i] = true) ∧
      levels.length < (refineLevelsAux
        (initrpPred 40 3 (fun _ _ => 1) (cycleGd (fun _ _ => 1) c
          levels.length) c (2 - 0)) (nchildren false) 0 levels).length)) :=
  ⟨⟨⟨Nat.zero_le 1, by omega⟩, by decide,
      by intro lv hlv; simp at hlv; omega, fun _ _ => zero_lt_one⟩,
    initrp_terminates false 40 3 (fun _ _ => 1) 1 2 0 [1, 1]
      ⟨Nat.zero_le 1, by omega⟩ (by decide)
      (by intro lv hlv; simp at hlv; omega) (fun _ _ => zero_lt_one)⟩

end Particles
